import Mathlib

/-!
# SimpleOS v0.5 freestanding terminal (`kernel.c`)

A shallow embedding of the text-mode display driver (`scroll`, `print_char`,
`print`, `clear_screen`), of `strcmp`, of the line editor `read_line` and of
`kernel_main` with its command dispatch, followed by the properties proved
about them.

Conventions of the embedding.

* A `char` is a byte, a natural number below 256; a `const char*` argument is
  the list of the bytes found from the pointer on, and reading at the end of
  that list yields the terminator `0`.
* `int` variables are `Int`.  No value reached from a state with the cursor
  inside the screen comes near the limits of a 32-bit `int`, so the arithmetic
  is the unbounded one.
* The display memory `video` is the list of its 16-bit cells.  An access
  `video[i]` outside the list, and an access to the line buffer outside the
  caller's array, stop the run with an `Abort`; so does a `read_key` that
  finds no keystroke (the call blocks for ever).
-/

namespace Kernel

/-! ## Definitions -/

/-- Constant `SCREEN_WIDTH`. -/
abbrev SCREEN_WIDTH : Nat := 80

/-- Constant `SCREEN_HEIGHT`. -/
abbrev SCREEN_HEIGHT : Nat := 25

/-- Constant `SCREEN_SIZE`, the number of cells of the display. -/
abbrev SCREEN_SIZE : Nat := SCREEN_WIDTH * SCREEN_HEIGHT

/-- Reasons for which a run does not continue. -/
inductive Abort where
  /-- An access `video[i]` with `i` outside the display memory. -/
  | video_range
  /-- An access `buf[i]` outside the caller's line buffer. -/
  | buf_range
  /-- A call of `read_key` with no keystroke left: it never returns. -/
  | key_wait
  deriving DecidableEq, Repr

/-- The two globals of the display driver: `video` and `cursor`. -/
structure Display where
  /-- Cells of the memory at `VIDEO_MEM`, one `uint16_t` each. -/
  video : List Nat
  /-- Global `int cursor`. -/
  cursor : Int
  deriving DecidableEq, Repr

/-- Integer promotion of a `char` holding byte `c` (on x86 `char` is signed). -/
def promote_char (c : Nat) : Int :=
  if c < 128 then (c : Int) else (c : Int) - 256

/-- Conversion of an `int` value to `uint16_t`. -/
def to_uint16 (x : Int) : Nat := (x % 65536).toNat

/-- Value `(c | 0x0F00)` stored in a `uint16_t` cell for the `char` byte `c`. -/
def char_cell (c : Nat) : Nat := to_uint16 (Int.lor (promote_char c) 0x0F00)

/-- Read of `video[i]`. -/
def video_load (v : List Nat) (i : Int) : Except Abort Nat :=
  if 0 ≤ i then
    match v[i.toNat]? with
    | some x => .ok x
    | none => .error .video_range
  else .error .video_range

/-- Assignment `video[i] = x`. -/
def video_store (v : List Nat) (i : Int) (x : Nat) : Except Abort (List Nat) :=
  if 0 ≤ i ∧ i.toNat < v.length then .ok (v.set i.toNat x) else .error .video_range

/-- Loop `for (int i = lo; i < lo + n; i++) body`, for a body that does not
assign `i`: `n` iterations, starting at index `i`. -/
def for_count (body : Int → List Nat → Except Abort (List Nat)) :
    Nat → Int → List Nat → Except Abort (List Nat)
  | 0, _, v => .ok v
  | n + 1, i, v =>
    match body i v with
    | .error e => .error e
    | .ok v1 => for_count body n (i + 1) v1

/-- Body `video[i - SCREEN_WIDTH] = video[i]` of the first loop of `scroll`. -/
def scroll_move (i : Int) (v : List Nat) : Except Abort (List Nat) :=
  match video_load v i with
  | .error e => .error e
  | .ok x => video_store v (i - SCREEN_WIDTH) x

/-- Function `scroll`. -/
def scroll (d : Display) : Except Abort Display :=
  match for_count scroll_move (SCREEN_SIZE - SCREEN_WIDTH) SCREEN_WIDTH d.video with
  | .error e => .error e
  | .ok v1 =>
    match for_count (fun i v => video_store v i 0x0720) SCREEN_WIDTH
        ((SCREEN_SIZE : Int) - SCREEN_WIDTH) v1 with
    | .error e => .error e
    | .ok v2 => .ok { video := v2, cursor := (SCREEN_SIZE : Int) - SCREEN_WIDTH }

/-- Tail `if (cursor >= SCREEN_SIZE) scroll();` of `print_char`. -/
def scroll_check (d : Display) : Except Abort Display :=
  if d.cursor ≥ SCREEN_SIZE then scroll d else .ok d

/-- Function `print_char`; `10`, `13` and `8` are newline, carriage return and
backspace. -/
def print_char (d : Display) (c : Nat) : Except Abort Display :=
  if c = 10 then
    scroll_check { d with cursor := (d.cursor.tdiv SCREEN_WIDTH + 1) * SCREEN_WIDTH }
  else if c = 13 then
    scroll_check { d with cursor := d.cursor.tdiv SCREEN_WIDTH * SCREEN_WIDTH }
  else if c = 8 then
    if d.cursor > 0 then
      match video_store d.video (d.cursor - 1) 0x0720 with
      | .error e => .error e
      | .ok v => .ok { video := v, cursor := d.cursor - 1 }
    else .ok d
  else
    match video_store d.video d.cursor (char_cell c) with
    | .error e => .error e
    | .ok v => scroll_check { video := v, cursor := d.cursor + 1 }

/-- Function `print`: the loop ends at the first byte `0`. -/
def print (d : Display) : List Nat → Except Abort Display
  | [] => .ok d
  | c :: str =>
    if c = 0 then .ok d
    else
      match print_char d c with
      | .error e => .error e
      | .ok d1 => print d1 str

/-- Function `clear_screen`. -/
def clear_screen (d : Display) : Except Abort Display :=
  match for_count (fun i v => video_store v i 0x0720) SCREEN_SIZE 0 d.video with
  | .error e => .error e
  | .ok v => .ok { video := v, cursor := 0 }

/-- Bytes of a string literal. -/
def bytes (s : String) : List Nat := s.toList.map Char.toNat

/-- Content of a terminated string: the bytes before the first `0`. -/
def cstr (s : List Nat) : List Nat := s.takeWhile (fun b => b != 0)

/-- Glyph byte of a cell. -/
def glyph_byte (cell : Nat) : Nat := cell % 256

/-- Attribute byte of a cell. -/
def attr_byte (cell : Nat) : Nat := cell / 256

/-- A display of `SCREEN_SIZE` cells with the cursor on one of them. -/
def Display.valid (d : Display) : Prop :=
  d.video.length = SCREEN_SIZE ∧ 0 ≤ d.cursor ∧ d.cursor < SCREEN_SIZE

instance (d : Display) : Decidable d.valid := by
  unfold Display.valid; infer_instance

/-- Successive `print_char` calls on the elements of a list, in order. -/
def print_chars (d : Display) : List Nat → Except Abort Display
  | [] => .ok d
  | c :: cs =>
    match print_char d c with
    | .error e => .error e
    | .ok d1 => print_chars d1 cs

/-- A display filled with the cell `x`, cursor at `k`. -/
def filled (x : Nat) (k : Int) : Display :=
  { video := List.replicate SCREEN_SIZE x, cursor := k }

/-- Assignment `buf[i] = x` to the caller's line buffer. -/
def buf_store (b : List Nat) (i : Int) (x : Nat) : Except Abort (List Nat) :=
  if 0 ≤ i ∧ i.toNat < b.length then .ok (b.set i.toNat x) else .error .buf_range

/-- State of `read_line`: the caller's array `buf`, the local `i`, the display,
and the list `echoed` of the arguments of the `print_char` calls made by the
loop so far (kept for the statements only, the code has no such variable). -/
structure Editor where
  /-- Contents of the caller's array `buf`. -/
  buf : List Nat
  /-- Local `int i`. -/
  i : Int
  /-- Display globals. -/
  disp : Display
  /-- Characters passed to `print_char` by the loop, oldest first. -/
  echoed : List Nat
  deriving DecidableEq, Repr

/-- Loop `while (i < max_len - 1)` of `read_line`.  The first argument after
`max_len` holds the keystrokes that successive `read_key` calls return; the
result pairs the state at the exit of the loop with the keystrokes not read. -/
def read_loop (max_len : Int) : List Nat → Editor → Except Abort (Editor × List Nat)
  | [], s => if s.i < max_len - 1 then .error .key_wait else .ok (s, [])
  | c :: rest, s =>
    if s.i < max_len - 1 then
      if c = 13 then .ok (s, rest)
      else if c = 8 then
        if s.i > 0 then
          match print_char s.disp 8 with
          | .error e => .error e
          | .ok d => read_loop max_len rest
              { s with i := s.i - 1, disp := d, echoed := s.echoed ++ [8] }
        else read_loop max_len rest s
      else if 32 ≤ c ∧ c ≤ 126 then
        match buf_store s.buf s.i c with
        | .error e => .error e
        | .ok b =>
          match print_char s.disp c with
          | .error e => .error e
          | .ok d => read_loop max_len rest
              { buf := b, i := s.i + 1, disp := d, echoed := s.echoed ++ [c] }
      else read_loop max_len rest s
    else .ok (s, c :: rest)

/-- Function `read_line`, with the pending keystrokes and the display as
explicit arguments.  The line read is `cstr` of the returned `buf`. -/
def read_line (keys : List Nat) (buf : List Nat) (max_len : Int) (d : Display) :
    Except Abort (Editor × List Nat) :=
  match read_loop max_len keys { buf := buf, i := 0, disp := d, echoed := [] } with
  | .error e => .error e
  | .ok (s, rest) =>
    match buf_store s.buf s.i 0 with
    | .error e => .error e
    | .ok b =>
      match print s.disp (bytes "\n") with
      | .error e => .error e
      | .ok d1 => .ok ({ s with buf := b, disp := d1 }, rest)

/-- What the loop of `read_line` collects, on lists alone: the line, the
keystrokes left unread and the characters echoed. -/
structure Collected where
  /-- Bytes collected, `buf[0..i)`. -/
  line : List Nat
  /-- Keystrokes not read. -/
  unread : List Nat
  /-- Characters echoed, oldest first. -/
  echo : List Nat
  deriving DecidableEq, Repr

/-- The loop of `read_line` on lists alone, with `n` for `max_len - 1` and
`line` for `buf[0..i)`; `none` when the keystrokes run out inside the loop. -/
def collect (n : Nat) : List Nat → List Nat → Option Collected
  | [], line => if line.length < n then none else some ⟨line, [], []⟩
  | c :: rest, line =>
    if line.length < n then
      if c = 13 then some ⟨line, rest, []⟩
      else if c = 8 then
        if 0 < line.length then
          (collect n rest line.dropLast).map fun r => { r with echo := 8 :: r.echo }
        else collect n rest line
      else if 32 ≤ c ∧ c ≤ 126 then
        (collect n rest (line ++ [c])).map fun r => { r with echo := c :: r.echo }
      else collect n rest line
    else some ⟨line, c :: rest, []⟩

/-- Rule of the line editor for one keystroke, after the specification: a
printable byte is appended, a backspace removes the last collected byte if
there is one, every other value is ignored. -/
def edit_step (line : List Nat) (c : Nat) : List Nat :=
  if 32 ≤ c ∧ c ≤ 126 then line ++ [c]
  else if c = 8 then line.dropLast
  else line

/-- Left-to-right fold of `edit_step` over the keystrokes, after the
specification. -/
def edit_fold (keys : List Nat) : List Nat := keys.foldl edit_step []

/-- Function `strcmp`: the scan stops at the terminator of `s1` or at the first
difference; the result is the difference of the two bytes as `unsigned char`. -/
def strcmp : List Nat → List Nat → Int
  | [], s2 => (0 : Int) - (s2.headD 0 : Nat)
  | a :: s1, s2 =>
    if a ≠ 0 ∧ a = s2.headD 0 then strcmp s1 s2.tail
    else (a : Int) - (s2.headD 0 : Nat)

/-- Function `strcmp` with, next to its result, the number of times the
condition of its `while` loop is evaluated. -/
def strcmp_counted : List Nat → List Nat → Int × Nat
  | [], s2 => ((0 : Int) - (s2.headD 0 : Nat), 1)
  | a :: s1, s2 =>
    if a ≠ 0 ∧ a = s2.headD 0 then
      ((strcmp_counted s1 s2.tail).1, (strcmp_counted s1 s2.tail).2 + 1)
    else ((a : Int) - (s2.headD 0 : Nat), 1)

/-- The three functions stored in the command table. -/
inductive Handler where
  | cmd_restart
  | cmd_shutdown
  | cmd_clear
  deriving DecidableEq, Repr

/-- Software interrupts issued by the handlers: `int $0x19`, and `int $0x15`
with `ax = 0x5307`. -/
inductive Trap where
  | int19
  | int15_5307
  deriving DecidableEq, Repr

/-- Type `struct Command`. -/
structure Command where
  /-- Field `name`. -/
  name : List Nat
  /-- Field `func`. -/
  func : Handler
  deriving DecidableEq, Repr

/-- Table `commands`. -/
def commands : List Command :=
  [⟨bytes "restart", .cmd_restart⟩, ⟨bytes "shutdown", .cmd_shutdown⟩,
   ⟨bytes "clear", .cmd_clear⟩]

/-- The display together with two records kept for the statements only: the
handlers called through the table and the interrupts issued, oldest first.
An interrupt is taken to return to its caller. -/
structure Machine where
  /-- Display globals. -/
  disp : Display
  /-- Handlers called through `commands[i].func()`. -/
  invoked : List Handler
  /-- Interrupts issued. -/
  traps : List Trap
  deriving DecidableEq, Repr

/-- Function `cmd_restart`. -/
def cmd_restart (m : Machine) : Except Abort Machine :=
  match print m.disp (bytes "Restarting...\n") with
  | .error e => .error e
  | .ok d => .ok { m with disp := d, traps := m.traps ++ [.int19] }

/-- Function `cmd_shutdown`. -/
def cmd_shutdown (m : Machine) : Except Abort Machine :=
  match print m.disp (bytes "Attempting shutdown...\n") with
  | .error e => .error e
  | .ok d => .ok { m with disp := d, traps := m.traps ++ [.int15_5307] }

/-- Function `cmd_clear`. -/
def cmd_clear (m : Machine) : Except Abort Machine :=
  match clear_screen m.disp with
  | .error e => .error e
  | .ok d => .ok { m with disp := d }

/-- Call `commands[i].func()` through the function pointer `f`. -/
def call (f : Handler) (m : Machine) : Except Abort Machine :=
  let m1 := { m with invoked := m.invoked ++ [f] }
  match f with
  | .cmd_restart => cmd_restart m1
  | .cmd_shutdown => cmd_shutdown m1
  | .cmd_clear => cmd_clear m1

/-- Loop `for (int i = 0; i < CMD_COUNT; i++)` of `kernel_main` over the table
entries not yet visited; the Boolean returned is `found`. -/
def scan (input : List Nat) : List Command → Machine → Except Abort (Bool × Machine)
  | [], m => .ok (false, m)
  | cmd :: rest, m =>
    if input.headD 0 ≠ 0 ∧ strcmp input cmd.name = 0 then
      match call cmd.func m with
      | .error e => .error e
      | .ok m1 => .ok (true, m1)
    else scan input rest m

/-- Dispatch step of `kernel_main`: the scan of the table, then the message
printed when `found` is `0`. -/
def dispatch (input : List Nat) (m : Machine) : Except Abort Machine :=
  match scan input commands m with
  | .error e => .error e
  | .ok (found, m1) =>
    if found then .ok m1
    else
      match print m1.disp (bytes "Unknown command: ") with
      | .error e => .error e
      | .ok d1 =>
        match print d1 input with
        | .error e => .error e
        | .ok d2 =>
          match print d2 (bytes "\n") with
          | .error e => .error e
          | .ok d3 => .ok { m1 with disp := d3 }

/-- Relation between a state `s` of the loop of `read_line` and the display on
which the loop started, of cells `v0` and cursor `p`: the cursor is `p + i`, the
cells `p` to `p + i - 1` show the bytes `buf[0..i)`, the cells before `p` are
those of `v0`, and each cell from `p + i` on is that of `v0` or the blank. -/
def Editor.tracks (max_len : Int) (p : Nat) (v0 : List Nat) (s : Editor) : Prop :=
  0 ≤ s.i ∧ s.i ≤ max_len - 1 ∧ max_len ≤ s.buf.length ∧
  s.disp.video.length = SCREEN_SIZE ∧
  s.disp.cursor = (p : Int) + s.i ∧
  (∀ j : Nat, j < s.i.toNat → s.disp.video[p + j]? = (s.buf[j]?).map char_cell) ∧
  (∀ j : Nat, j < p → s.disp.video[j]? = v0[j]?) ∧
  (∀ j : Nat, p + s.i.toNat ≤ j →
    s.disp.video[j]? = v0[j]? ∨ s.disp.video[j]? = some 0x0720)

/-- A display of `SCREEN_SIZE` cells with the cursor at the start of a row. -/
def Display.at_row_start (d : Display) : Prop :=
  d.video.length = SCREEN_SIZE ∧ 0 ≤ d.cursor ∧ d.cursor ≤ 1920 ∧ d.cursor % 80 = 0

/-- Start of `kernel_main`: `clear_screen`, then the banner. -/
def kernel_start (d : Display) : Except Abort Machine :=
  match clear_screen d with
  | .error e => .error e
  | .ok d1 =>
    match print d1 (bytes "SimpleOS v0.5 - Freestanding Terminal\n") with
    | .error e => .error e
    | .ok d2 => .ok { disp := d2, invoked := [], traps := [] }

/-- State of `kernel_main` at the top of its `while(1)` loop. -/
structure Shell where
  /-- Display and records. -/
  m : Machine
  /-- Contents of the array `char input[16]`. -/
  input : List Nat
  /-- Keystrokes that `read_key` has not returned yet. -/
  keys : List Nat

/-- One pass through the body of the `while(1)` loop of `kernel_main`: the
prompt, `read_line(input, sizeof(input))`, the dispatch step. -/
def loop_body (s : Shell) : Except Abort Shell :=
  match print s.m.disp (bytes "> ") with
  | .error e => .error e
  | .ok d1 =>
    match read_line s.keys s.input 16 d1 with
    | .error e => .error e
    | .ok (t, rest) =>
      match dispatch t.buf { s.m with disp := t.disp } with
      | .error e => .error e
      | .ok m1 => .ok { m := m1, input := t.buf, keys := rest }

/-- The first `n` passes through the `while(1)` loop of `kernel_main`. -/
def main_loop : Nat → Shell → Except Abort Shell
  | 0, s => .ok s
  | n + 1, s =>
    match loop_body s with
    | .error e => .error e
    | .ok s1 => main_loop n s1

/-! ## Display driver: basic facts -/

theorem width_int : ((SCREEN_WIDTH : Nat) : Int) = 80 := rfl

theorem size_int : ((SCREEN_SIZE : Nat) : Int) = 2000 := rfl

theorem size_nat : SCREEN_SIZE = 2000 := rfl

theorem video_store_ok (v : List Nat) (i : Int) (x : Nat) (h0 : 0 ≤ i)
    (h1 : i.toNat < v.length) : video_store v i x = .ok (v.set i.toNat x) := by
  simp [video_store, h0, h1]

theorem video_load_ok (v : List Nat) (i : Int) (x : Nat) (h0 : 0 ≤ i)
    (h1 : v[i.toNat]? = some x) : video_load v i = .ok x := by
  simp [video_load, h0, h1]

theorem fill_loop (x : Nat) (n : Nat) : ∀ (i : Int) (v : List Nat), 0 ≤ i →
    i.toNat + n ≤ v.length →
    ∃ w, for_count (fun i v => video_store v i x) n i v = .ok w ∧
      w.length = v.length ∧
      ∀ j : Nat, w[j]? = if i.toNat ≤ j ∧ j < i.toNat + n then some x else v[j]? := by
  induction n with
  | zero =>
    intro i v _ _
    refine ⟨v, rfl, rfl, fun j => ?_⟩
    rw [if_neg (by omega)]
  | succ n ih =>
    intro i v h0 h1
    have hs : video_store v i x = .ok (v.set i.toNat x) :=
      video_store_ok v i x h0 (by omega)
    obtain ⟨w, hw, hlen, hget⟩ := ih (i + 1) (v.set i.toNat x) (by omega)
      (by rw [List.length_set]; omega)
    refine ⟨w, ?_, ?_, fun j => ?_⟩
    · simp only [for_count, hs]; exact hw
    · rw [hlen, List.length_set]
    · rw [hget j, List.getElem?_set]
      by_cases hj : i.toNat = j
      · subst hj
        rw [if_neg (by omega), if_pos rfl, if_pos (by omega), if_pos (by omega)]
      · rw [if_neg hj]
        by_cases hc : i.toNat ≤ j ∧ j < i.toNat + (n + 1)
        · rw [if_pos hc, if_pos (by omega)]
        · rw [if_neg hc, if_neg (by omega)]

theorem move_loop (n : Nat) : ∀ (i : Int) (v : List Nat), (SCREEN_WIDTH : Int) ≤ i →
    i.toNat + n ≤ v.length →
    ∃ w, for_count scroll_move n i v = .ok w ∧ w.length = v.length ∧
      ∀ j : Nat, w[j]? =
        if i.toNat - SCREEN_WIDTH ≤ j ∧ j < i.toNat - SCREEN_WIDTH + n
        then v[j + SCREEN_WIDTH]? else v[j]? := by
  induction n with
  | zero =>
    intro i v _ _
    refine ⟨v, rfl, rfl, fun j => ?_⟩
    rw [if_neg (by omega)]
  | succ n ih =>
    intro i v h0 h1
    have hlt : i.toNat < v.length := by omega
    have hl : video_load v i = .ok v[i.toNat] :=
      video_load_ok v i _ (by omega) (List.getElem?_eq_getElem hlt)
    have hs : video_store v (i - SCREEN_WIDTH) v[i.toNat] =
        .ok (v.set (i - SCREEN_WIDTH).toNat v[i.toNat]) :=
      video_store_ok v _ _ (by omega) (by omega)
    obtain ⟨w, hw, hlen, hget⟩ := ih (i + 1) (v.set (i - SCREEN_WIDTH).toNat v[i.toNat])
      (by omega) (by rw [List.length_set]; omega)
    refine ⟨w, ?_, ?_, fun j => ?_⟩
    · simp only [for_count, scroll_move, hl, hs]; exact hw
    · rw [hlen, List.length_set]
    · rw [hget j, List.getElem?_set, List.getElem?_set]
      have e1 : (i - (SCREEN_WIDTH : Int)).toNat = i.toNat - SCREEN_WIDTH := by omega
      have e2 : (i + 1).toNat = i.toNat + 1 := by omega
      rw [e1, e2]
      by_cases hj : i.toNat - SCREEN_WIDTH = j
      · subst hj
        rw [if_neg (by omega), if_pos rfl, if_pos (by omega), if_pos (by omega)]
        rw [show i.toNat - SCREEN_WIDTH + SCREEN_WIDTH = i.toNat by omega]
        exact (List.getElem?_eq_getElem hlt).symm
      · rw [if_neg hj]
        by_cases hc : i.toNat - SCREEN_WIDTH ≤ j ∧ j < i.toNat - SCREEN_WIDTH + (n + 1)
        · rw [if_pos hc, if_pos (by omega), if_neg (by omega)]
        · rw [if_neg hc, if_neg (by omega)]

theorem scroll_ok (d : Display) (hlen : d.video.length = SCREEN_SIZE) :
    ∃ w, scroll d = .ok { video := w, cursor := 1920 } ∧ w.length = SCREEN_SIZE ∧
      (∀ j : Nat, j < 1920 → w[j]? = d.video[j + 80]?) ∧
      (∀ j : Nat, 1920 ≤ j → j < 2000 → w[j]? = some 0x0720) := by
  obtain ⟨v1, h1, l1, g1⟩ := move_loop (SCREEN_SIZE - SCREEN_WIDTH) SCREEN_WIDTH d.video
    (le_refl _) (by rw [hlen]; decide)
  obtain ⟨v2, h2, l2, g2⟩ := fill_loop 0x0720 SCREEN_WIDTH
    ((SCREEN_SIZE : Int) - SCREEN_WIDTH) v1 (by decide) (by rw [l1, hlen]; decide)
  refine ⟨v2, ?_, by rw [l2, l1, hlen], fun j hj => ?_, fun j hj hj2 => ?_⟩
  · simp only [scroll, h1, h2]; rfl
  · have e : ((SCREEN_SIZE : Int) - SCREEN_WIDTH).toNat = 1920 := by decide
    have e2 : ((SCREEN_WIDTH : Nat) : Int).toNat = 80 := by decide
    rw [g2 j, e, if_neg (by omega), g1 j, e2, if_pos (by omega)]
  · have e : ((SCREEN_SIZE : Int) - SCREEN_WIDTH).toNat = 1920 := by decide
    rw [g2 j, e, if_pos ⟨hj, by simp only [SCREEN_WIDTH]; omega⟩]

theorem scroll_check_valid (d : Display) (hlen : d.video.length = SCREEN_SIZE)
    (h0 : 0 ≤ d.cursor) : ∃ e, scroll_check d = .ok e ∧ e.valid := by
  by_cases h : d.cursor ≥ SCREEN_SIZE
  · obtain ⟨w, hw, hl, _, _⟩ := scroll_ok d hlen
    exact ⟨_, by simp only [scroll_check, if_pos h]; exact hw, hl, by simp, by simp⟩
  · exact ⟨d, by simp only [scroll_check, if_neg h], hlen, h0, by omega⟩

theorem print_char_valid (d : Display) (c : Nat) (h : d.valid) :
    ∃ e, print_char d c = .ok e ∧ e.valid := by
  obtain ⟨hlen, h0, h1⟩ := h
  have hdiv : d.cursor.tdiv 80 = d.cursor / 80 := Int.tdiv_eq_ediv h0 (by decide)
  unfold print_char
  split
  · exact scroll_check_valid _ hlen (by simp only [width_int, hdiv]; omega)
  split
  · exact scroll_check_valid _ hlen (by simp only [width_int, hdiv]; omega)
  split
  · split
    · rw [video_store_ok _ _ _ (by omega) (by omega)]
      exact ⟨_, rfl, by rw [List.length_set]; exact hlen, by simp only; omega,
        by simp only; omega⟩
    · exact ⟨d, rfl, hlen, h0, h1⟩
  · rw [video_store_ok _ _ _ h0 (by omega)]
    exact scroll_check_valid _ (by rw [List.length_set]; exact hlen) (by simp only; omega)

theorem print_valid (s : List Nat) : ∀ d : Display, d.valid →
    ∃ e, print d s = .ok e ∧ e.valid := by
  induction s with
  | nil => exact fun d h => ⟨d, rfl, h⟩
  | cons c s ih =>
    intro d h
    by_cases hc : c = 0
    · exact ⟨d, by simp only [print, if_pos hc], h⟩
    · obtain ⟨e, he, hv⟩ := print_char_valid d c h
      obtain ⟨f, hf, hfv⟩ := ih e hv
      exact ⟨f, by simp only [print, if_neg hc, he]; exact hf, hfv⟩

theorem print_chars_valid (s : List Nat) : ∀ d : Display, d.valid →
    ∃ e, print_chars d s = .ok e ∧ e.valid := by
  induction s with
  | nil => exact fun d h => ⟨d, rfl, h⟩
  | cons c s ih =>
    intro d h
    obtain ⟨e, he, hv⟩ := print_char_valid d c h
    obtain ⟨f, hf, hfv⟩ := ih e hv
    exact ⟨f, by simp only [print_chars, he]; exact hf, hfv⟩

theorem clear_screen_ok (d : Display) (hlen : d.video.length = SCREEN_SIZE) :
    clear_screen d = .ok (filled 0x0720 0) := by
  obtain ⟨w, hw, hl, hg⟩ := fill_loop 0x0720 SCREEN_SIZE 0 d.video (le_refl _)
    (by rw [hlen]; decide)
  have : w = List.replicate SCREEN_SIZE 0x0720 := by
    apply List.ext_getElem?
    intro j
    rw [hg j]
    by_cases hj : j < SCREEN_SIZE
    · rw [if_pos ⟨by simp, by simpa using hj⟩, List.getElem?_replicate, if_pos hj]
    · rw [if_neg (by simp; omega), List.getElem?_replicate, if_neg hj]
      exact List.getElem?_eq_none (by omega)
  simp only [clear_screen, hw, this, filled]

theorem filled_valid (x : Nat) (k : Int) (h0 : 0 ≤ k) (h1 : k < SCREEN_SIZE) :
    (filled x k).valid :=
  ⟨List.length_replicate _ _, h0, h1⟩

theorem scroll_eq (d : Display) (hlen : d.video.length = SCREEN_SIZE) :
    scroll d = .ok { video := d.video.drop 80 ++ List.replicate 80 0x0720, cursor := 1920 } := by
  obtain ⟨w, hw, hl, g1, g2⟩ := scroll_ok d hlen
  have : w = d.video.drop 80 ++ List.replicate 80 0x0720 := by
    apply List.ext_getElem?
    intro j
    have hd : (d.video.drop 80).length = 1920 := by
      rw [List.length_drop, hlen, size_nat]
    rw [List.getElem?_append, hd]
    by_cases h1 : j < 1920
    · rw [if_pos h1, g1 j h1, List.getElem?_drop, Nat.add_comm]
    · rw [if_neg h1, List.getElem?_replicate]
      by_cases h2 : j < 2000
      · rw [if_pos (by omega), g2 j (by omega) h2]
      · rw [if_neg (by omega)]
        exact List.getElem?_eq_none (by rw [hl, size_nat]; omega)
  rw [hw, this]

theorem char_cell_ascii : ∀ c < 128, char_cell c = 0x0F00 + c := by decide

theorem print_char_plain (d : Display) (c : Nat) (h : d.valid) (h10 : c ≠ 10)
    (h13 : c ≠ 13) (h8 : c ≠ 8) :
    print_char d c = scroll_check
      { video := d.video.set d.cursor.toNat (char_cell c), cursor := d.cursor + 1 } := by
  obtain ⟨hlen, h0, h1⟩ := h
  simp only [print_char, if_neg h10, if_neg h13, if_neg h8]
  rw [video_store_ok _ _ _ h0 (by omega)]

theorem print_chars_append (a b : List Nat) : ∀ d : Display,
    print_chars d (a ++ b) =
      match print_chars d a with
      | .error e => .error e
      | .ok d1 => print_chars d1 b := by
  induction a with
  | nil => intro d; rfl
  | cons c a ih =>
    intro d
    simp only [List.cons_append, print_chars]
    cases print_char d c with
    | error e => rfl
    | ok d1 => exact ih d1

theorem print_chars_run (s : List Nat) : ∀ (v : List Nat) (k : Nat),
    (∀ c ∈ s, 32 ≤ c ∧ c ≤ 126) → v.length = SCREEN_SIZE → k + s.length < SCREEN_SIZE →
    ∃ w, print_chars { video := v, cursor := k } s =
        .ok { video := w, cursor := ((k + s.length : Nat) : Int) } ∧
      w.length = SCREEN_SIZE ∧
      ∀ j : Nat, w[j]? =
        if k ≤ j ∧ j < k + s.length then (s[j - k]?).map char_cell else v[j]? := by
  induction s with
  | nil =>
    intro v k _ hlen _
    refine ⟨v, rfl, hlen, fun j => ?_⟩
    rw [if_neg (by simp)]
  | cons c s ih =>
    intro v k hp hlen hk
    simp only [List.length_cons, size_nat] at hk
    have hc := hp c (List.mem_cons_self c s)
    have hstep : print_char { video := v, cursor := k } c =
        .ok { video := v.set k (char_cell c), cursor := ((k + 1 : Nat) : Int) } := by
      rw [print_char_plain _ c ⟨hlen, by simp, by simp only [size_int]; omega⟩
        (by omega) (by omega) (by omega)]
      simp only [scroll_check, Int.toNat_ofNat]
      rw [if_neg (by simp only [size_int]; omega)]
      rfl
    obtain ⟨w, hw, hl, hg⟩ := ih (v.set k (char_cell c)) (k + 1)
      (fun x hx => hp x (List.mem_cons_of_mem c hx))
      (by rw [List.length_set]; exact hlen) (by rw [size_nat]; omega)
    refine ⟨w, ?_, hl, fun j => ?_⟩
    · simp only [print_chars, hstep, hw, List.length_cons]
      congr 3; omega
    · rw [hg j, List.getElem?_set, List.length_cons]
      by_cases hj : k = j
      · subst hj
        rw [if_neg (by omega), if_pos rfl, if_pos (by rw [hlen, size_nat]; omega),
          if_pos (by omega), Nat.sub_self, List.getElem?_cons_zero]
        rfl
      · rw [if_neg hj]
        by_cases hr : k ≤ j ∧ j < k + (s.length + 1)
        · rw [if_pos hr, if_pos (by omega), show j - k = (j - (k + 1)) + 1 by omega,
            List.getElem?_cons_succ]
        · rw [if_neg hr, if_neg (by omega)]

theorem glyph_char_cell (c : Nat) (h : c < 128) : glyph_byte (char_cell c) = c := by
  rw [char_cell_ascii c h, glyph_byte]; omega

theorem fill_then_scroll (s : List Nat) (hlen : s.length = 2000)
    (hp : ∀ c ∈ s, 32 ≤ c ∧ c ≤ 126) (v : List Nat) (hv : v.length = SCREEN_SIZE) :
    ∃ w, print_chars { video := v, cursor := 0 } s = .ok { video := w, cursor := 1920 } ∧
      w.length = SCREEN_SIZE ∧
      (∀ i : Nat, i < 1920 → w[i]? = (s[i + 80]?).map char_cell) ∧
      (∀ i : Nat, 1920 ≤ i → i < 2000 → w[i]? = some 0x0720) := by
  have hsplit : s = s.take 1999 ++ [s[1999]] := by
    conv_lhs => rw [← List.take_append_drop 1999 s]
    rw [List.drop_eq_getElem_cons (by omega), List.drop_eq_nil_of_le (by omega)]
  have hta : (s.take 1999).length = 1999 := by rw [List.length_take]; omega
  have hc := hp s[1999] (List.getElem_mem _)
  obtain ⟨w1, hw1, hl1, hg1⟩ := print_chars_run (s.take 1999) v 0
    (fun x hx => hp x (List.mem_of_mem_take hx)) hv (by rw [hta, size_nat]; omega)
  have hcur : (((0 + (s.take 1999).length : Nat)) : Int) = 1999 := by rw [hta]; rfl
  rw [hcur] at hw1
  have hstep : print_char { video := w1, cursor := 1999 } s[1999] =
      scroll { video := w1.set 1999 (char_cell s[1999]), cursor := 2000 } := by
    rw [print_char_plain _ _ ⟨hl1, by show (0 : Int) ≤ 1999; decide,
      by show (1999 : Int) < 2000; decide⟩ (by omega) (by omega) (by omega)]
    simp only [scroll_check]
    rw [if_pos (by decide)]
    rfl
  obtain ⟨w, hw, hl, g1, g2⟩ := scroll_ok
    { video := w1.set 1999 (char_cell s[1999]), cursor := 2000 }
    (by rw [List.length_set]; exact hl1)
  refine ⟨w, ?_, hl, fun i hi => ?_, g2⟩
  · rw [hsplit, print_chars_append]
    have h0 : ((0 : Nat) : Int) = 0 := rfl
    rw [h0] at hw1
    simp only [hw1, print_chars, hstep, hw]
  · rw [g1 i hi]
    simp only
    rw [List.getElem?_set]
    by_cases h9 : 1999 = i + 80
    · rw [if_pos h9, if_pos (by rw [hl1, size_nat]; omega), ← h9,
        List.getElem?_eq_getElem (by omega)]
      rfl
    · rw [if_neg h9, hg1, hta, if_pos (by omega), Nat.sub_zero, List.getElem?_take,
        if_pos (by omega)]

theorem char_cell_attr (c : Nat) (h : c < 128) : attr_byte (char_cell c) = 0x0F := by
  rw [char_cell_ascii c h, attr_byte]; omega

theorem scroll_check_cells (P : Nat → Prop) (hP : P 0x0720) (v : List Nat) (k : Int)
    (e : Display) (hlen : v.length = SCREEN_SIZE) (hd : ∀ x ∈ v, P x)
    (he : scroll_check { video := v, cursor := k } = .ok e) : ∀ x ∈ e.video, P x := by
  by_cases h : k ≥ SCREEN_SIZE
  · simp only [scroll_check, if_pos h, scroll_eq { video := v, cursor := k } hlen] at he
    injection he with he
    subst he
    intro x hx
    rcases List.mem_append.1 hx with hx | hx
    · exact hd x (List.mem_of_mem_drop hx)
    · rw [List.eq_of_mem_replicate hx]; exact hP
  · simp only [scroll_check, if_neg h] at he
    injection he with he
    subst he
    exact hd

theorem print_char_cells (P : Nat → Prop) (hP : P 0x0720) (c : Nat) (hc : P (char_cell c))
    (d e : Display) (hv : d.valid) (hd : ∀ x ∈ d.video, P x)
    (he : print_char d c = .ok e) : ∀ x ∈ e.video, P x := by
  obtain ⟨hlen, h0, h1⟩ := hv
  unfold print_char at he
  split at he
  · exact scroll_check_cells P hP _ _ e hlen hd he
  split at he
  · exact scroll_check_cells P hP _ _ e hlen hd he
  split at he
  · split at he
    · rw [video_store_ok _ _ _ (by omega) (by omega)] at he
      injection he with he
      subst he
      intro x hx
      rcases List.mem_or_eq_of_mem_set hx with hx | hx
      · exact hd x hx
      · rw [hx]; exact hP
    · injection he with he
      subst he
      exact hd
  · rw [video_store_ok _ _ _ h0 (by omega)] at he
    refine scroll_check_cells P hP _ _ e (by rw [List.length_set]; exact hlen) ?_ he
    intro x hx
    rcases List.mem_or_eq_of_mem_set hx with hx | hx
    · exact hd x hx
    · rw [hx]; exact hc

theorem print_chars_cells (P : Nat → Prop) (hP : P 0x0720) (s : List Nat)
    (hs : ∀ c ∈ s, P (char_cell c)) : ∀ d e : Display, d.valid → (∀ x ∈ d.video, P x) →
    print_chars d s = .ok e → ∀ x ∈ e.video, P x := by
  induction s with
  | nil =>
    intro d e _ hd he
    injection he with he
    subst he
    exact hd
  | cons c s ih =>
    intro d e hv hd he
    obtain ⟨d1, h1, v1⟩ := print_char_valid d c hv
    simp only [print_chars, h1] at he
    exact ih (fun x hx => hs x (List.mem_cons_of_mem c hx)) d1 e v1
      (print_char_cells P hP c (hs c (List.mem_cons_self c s)) d d1 hv hd h1) he

/-! ## Line editor: the loop of `read_line` and its list form -/

theorem take_set_self (l : List Nat) (i c : Nat) : (l.set i c).take i = l.take i := by
  apply List.ext_getElem?
  intro j
  rw [List.getElem?_take, List.getElem?_take, List.getElem?_set]
  by_cases h : j < i
  · rw [if_pos h, if_pos h, if_neg (by omega)]
  · rw [if_neg h, if_neg h]

theorem take_set_succ (l : List Nat) (i c : Nat) (h : i < l.length) :
    (l.set i c).take (i + 1) = l.take i ++ [c] := by
  rw [List.take_succ, List.getElem?_set, if_pos rfl, if_pos h, take_set_self]
  rfl

theorem dropLast_take_le (l : List Nat) (i : Nat) (h : i ≤ l.length) :
    (l.take i).dropLast = l.take (i - 1) := by
  rw [List.dropLast_eq_take, List.length_take, List.take_take]
  congr 1
  omega

theorem buf_store_ok (b : List Nat) (i : Int) (x : Nat) (h0 : 0 ≤ i)
    (h1 : i.toNat < b.length) : buf_store b i x = .ok (b.set i.toNat x) := by
  simp [buf_store, h0, h1]

theorem collect_exit (n : Nat) (keys line : List Nat) (h : ¬ line.length < n) :
    collect n keys line = some ⟨line, keys, []⟩ := by
  cases keys <;> simp [collect, h]

theorem read_loop_exit (max_len : Int) (keys : List Nat) (s : Editor)
    (h : ¬ s.i < max_len - 1) : read_loop max_len keys s = .ok (s, keys) := by
  cases keys <;> simp [read_loop, h]

theorem read_loop_collect (max_len : Int) (keys : List Nat) : ∀ s : Editor,
    0 ≤ s.i → s.i ≤ max_len - 1 → max_len ≤ s.buf.length → s.disp.valid →
    (collect (max_len - 1).toNat keys (s.buf.take s.i.toNat) = none →
      read_loop max_len keys s = .error .key_wait) ∧
    (∀ r, collect (max_len - 1).toNat keys (s.buf.take s.i.toNat) = some r →
      ∃ t, read_loop max_len keys s = .ok (t, r.unread) ∧ 0 ≤ t.i ∧ t.i ≤ max_len - 1 ∧
        t.i.toNat = r.line.length ∧ t.buf.take t.i.toNat = r.line ∧
        t.buf.length = s.buf.length ∧ t.echoed = s.echoed ++ r.echo ∧
        print_chars s.disp r.echo = .ok t.disp ∧ t.disp.valid) := by
  induction keys with
  | nil =>
    intro s h0 h1 hb hv
    have hlen : (s.buf.take s.i.toNat).length = s.i.toNat := by
      rw [List.length_take]; omega
    by_cases hc : s.i < max_len - 1
    · have hc2 : (s.buf.take s.i.toNat).length < (max_len - 1).toNat := by omega
      refine ⟨fun _ => by simp only [read_loop, if_pos hc], fun r hr => ?_⟩
      simp only [collect, if_pos hc2] at hr
      exact absurd hr (by simp)
    · have hc2 : ¬ (s.buf.take s.i.toNat).length < (max_len - 1).toNat := by omega
      rw [collect_exit _ _ _ hc2]
      refine ⟨fun hn => absurd hn (by simp), fun r hr => ?_⟩
      injection hr with hr
      subst hr
      exact ⟨s, read_loop_exit _ _ _ hc, h0, h1, hlen.symm, rfl, rfl, by simp, rfl, hv⟩
  | cons c rest ih =>
    intro s h0 h1 hb hv
    have hlen : (s.buf.take s.i.toNat).length = s.i.toNat := by
      rw [List.length_take]; omega
    by_cases hc : s.i < max_len - 1
    · have hc2 : (s.buf.take s.i.toNat).length < (max_len - 1).toNat := by omega
      by_cases h13 : c = 13
      · simp only [collect, if_pos hc2, if_pos h13, read_loop, if_pos hc]
        refine ⟨fun hn => absurd hn (by simp), fun r hr => ?_⟩
        injection hr with hr
        subst hr
        exact ⟨s, rfl, h0, h1, hlen.symm, rfl, rfl, by simp, rfl, hv⟩
      by_cases h8 : c = 8
      · by_cases hi : s.i > 0
        · have hi2 : 0 < (s.buf.take s.i.toNat).length := by omega
          obtain ⟨d, hd, hdv⟩ := print_char_valid s.disp 8 hv
          have hline : (s.buf.take s.i.toNat).dropLast = s.buf.take (s.i - 1).toNat := by
            rw [dropLast_take_le _ _ (by omega)]
            congr 1
            omega
          have ih1 := ih { s with i := s.i - 1, disp := d, echoed := s.echoed ++ [8] }
            (by simp only; omega) (by simp only; omega) hb hdv
          simp only [collect, if_pos hc2, if_neg h13, if_pos h8, if_pos hi2, read_loop,
            if_pos hc, if_pos hi, hd, hline]
          refine ⟨fun hn => ih1.1 (by simpa using hn), fun r hr => ?_⟩
          cases hq : collect (max_len - 1).toNat rest (s.buf.take (s.i - 1).toNat) with
          | none => rw [hq] at hr; exact absurd hr (by simp)
          | some q =>
            rw [hq] at hr
            simp only [Option.map_some'] at hr
            injection hr with hr
            subst hr
            obtain ⟨t, ht, a1, a2, a3, a4, a5, a6, a7, a8⟩ := ih1.2 q hq
            refine ⟨t, ht, a1, a2, a3, a4, a5, ?_, ?_, a8⟩
            · rw [a6]; simp
            · simp only [print_chars, hd]; exact a7
        · have hi2 : ¬ 0 < (s.buf.take s.i.toNat).length := by omega
          simp only [collect, if_pos hc2, if_neg h13, if_pos h8, if_neg hi2, read_loop,
            if_pos hc, if_neg hi]
          exact ih s h0 h1 hb hv
      by_cases hp : 32 ≤ c ∧ c ≤ 126
      · obtain ⟨d, hd, hdv⟩ := print_char_valid s.disp c hv
        have hst : buf_store s.buf s.i c = .ok (s.buf.set s.i.toNat c) :=
          buf_store_ok _ _ _ h0 (by omega)
        have hline : s.buf.take s.i.toNat ++ [c] =
            (s.buf.set s.i.toNat c).take (s.i + 1).toNat := by
          rw [show (s.i + 1).toNat = s.i.toNat + 1 by omega, take_set_succ _ _ _ (by omega)]
        have ih1 := ih
          { buf := s.buf.set s.i.toNat c, i := s.i + 1, disp := d, echoed := s.echoed ++ [c] }
          (by simp only; omega) (by simp only; omega)
          (by simp only [List.length_set]; exact hb) hdv
        simp only [collect, if_pos hc2, if_neg h13, if_neg h8, if_pos hp, read_loop,
          if_pos hc, hst, hd, hline]
        refine ⟨fun hn => ih1.1 (by simpa using hn), fun r hr => ?_⟩
        cases hq : collect (max_len - 1).toNat rest
            ((s.buf.set s.i.toNat c).take (s.i + 1).toNat) with
        | none => rw [hq] at hr; exact absurd hr (by simp)
        | some q =>
          rw [hq] at hr
          simp only [Option.map_some'] at hr
          injection hr with hr
          subst hr
          obtain ⟨t, ht, a1, a2, a3, a4, a5, a6, a7, a8⟩ := ih1.2 q hq
          refine ⟨t, ht, a1, a2, a3, a4, ?_, ?_, ?_, a8⟩
          · rw [a5]; simp
          · rw [a6]; simp
          · simp only [print_chars, hd]; exact a7
      · simp only [collect, if_pos hc2, if_neg h13, if_neg h8, if_neg hp, read_loop,
          if_pos hc]
        exact ih s h0 h1 hb hv
    · have hc2 : ¬ (s.buf.take s.i.toNat).length < (max_len - 1).toNat := by omega
      rw [collect_exit _ _ _ hc2]
      refine ⟨fun hn => absurd hn (by simp), fun r hr => ?_⟩
      injection hr with hr
      subst hr
      exact ⟨s, read_loop_exit _ _ _ hc, h0, h1, hlen.symm, rfl, rfl, by simp, rfl, hv⟩

theorem collect_printable (n : Nat) (keys : List Nat) : ∀ (line : List Nat) (r : Collected),
    (∀ c ∈ line, 32 ≤ c ∧ c ≤ 126) → collect n keys line = some r →
    ∀ c ∈ r.line, 32 ≤ c ∧ c ≤ 126 := by
  induction keys with
  | nil =>
    intro line r hl hr
    by_cases hc : line.length < n
    · simp [collect, hc] at hr
    · rw [collect_exit _ _ _ hc] at hr
      injection hr with hr
      subst hr
      exact hl
  | cons c rest ih =>
    intro line r hl hr
    by_cases hc : line.length < n
    · by_cases h13 : c = 13
      · simp only [collect, if_pos hc, if_pos h13] at hr
        injection hr with hr
        subst hr
        exact hl
      by_cases h8 : c = 8
      · by_cases hi : 0 < line.length
        · simp only [collect, if_pos hc, if_neg h13, if_pos h8, if_pos hi] at hr
          cases hq : collect n rest line.dropLast with
          | none => rw [hq] at hr; exact absurd hr (by simp)
          | some q =>
            rw [hq] at hr
            simp only [Option.map_some'] at hr
            injection hr with hr
            subst hr
            exact ih _ q (fun x hx => hl x (List.mem_of_mem_dropLast hx)) hq
        · simp only [collect, if_pos hc, if_neg h13, if_pos h8, if_neg hi] at hr
          exact ih _ r hl hr
      by_cases hp : 32 ≤ c ∧ c ≤ 126
      · simp only [collect, if_pos hc, if_neg h13, if_neg h8, if_pos hp] at hr
        cases hq : collect n rest (line ++ [c]) with
        | none => rw [hq] at hr; exact absurd hr (by simp)
        | some q =>
          rw [hq] at hr
          simp only [Option.map_some'] at hr
          injection hr with hr
          subst hr
          refine ih _ q (fun x hx => ?_) hq
          rcases List.mem_append.1 hx with hx | hx
          · exact hl x hx
          · rw [List.mem_singleton.1 hx]; exact hp
      · simp only [collect, if_pos hc, if_neg h13, if_neg h8, if_neg hp] at hr
        exact ih _ r hl hr
    · rw [collect_exit _ _ _ hc] at hr
      injection hr with hr
      subst hr
      exact hl

theorem cstr_append_zero (line tail : List Nat) (h : ∀ c ∈ line, 32 ≤ c ∧ c ≤ 126) :
    cstr (line ++ 0 :: tail) = line := by
  induction line with
  | nil => simp [cstr]
  | cons a l ih =>
    have ha := h a (List.mem_cons_self a l)
    have hne : (a != 0) = true := by simp; omega
    have := ih (fun x hx => h x (List.mem_cons_of_mem a hx))
    simp only [cstr, List.cons_append, List.takeWhile_cons, hne] at this ⊢
    rw [this, if_pos trivial]

theorem print_newline (d : Display) : print d (bytes "\n") = print_char d 10 := by
  have hb : bytes "\n" = [10] := by decide
  rw [hb]
  simp only [print]
  rw [if_neg (by decide)]
  cases print_char d 10 <;> rfl

theorem read_line_collect (keys buf : List Nat) (max_len : Int) (d : Display)
    (h1 : 1 ≤ max_len) (hb : max_len ≤ buf.length) (hv : d.valid) :
    (collect (max_len - 1).toNat keys [] = none →
      read_line keys buf max_len d = .error .key_wait) ∧
    (∀ r, collect (max_len - 1).toNat keys [] = some r →
      ∃ t d1, read_line keys buf max_len d = .ok (t, r.unread) ∧
        t.i = r.line.length ∧ r.line.length ≤ (max_len - 1).toNat ∧
        t.buf.length = buf.length ∧
        t.buf.take r.line.length = r.line ∧ t.buf[r.line.length]? = some 0 ∧
        cstr t.buf = r.line ∧ t.echoed = r.echo ∧
        print_chars d r.echo = .ok d1 ∧ print_char d1 10 = .ok t.disp ∧ t.disp.valid) := by
  have hl := read_loop_collect max_len keys { buf := buf, i := 0, disp := d, echoed := [] }
    (le_refl _) (by simp only; omega) hb hv
  simp only [Int.toNat_zero, List.take_zero] at hl
  refine ⟨fun hn => by simp only [read_line, hl.1 hn], fun r hr => ?_⟩
  obtain ⟨t, ht, a1, a2, a3, a4, a5, a6, a7, a8⟩ := hl.2 r hr
  obtain ⟨e, he, hev⟩ := print_char_valid t.disp 10 a8
  have hlt : t.i.toNat < t.buf.length := by omega
  have hst : buf_store t.buf t.i 0 = .ok (t.buf.set t.i.toNat 0) :=
    buf_store_ok _ _ _ a1 hlt
  have hpr := collect_printable _ keys [] r (by simp) hr
  have hsplit : t.buf.set t.i.toNat 0 = r.line ++ 0 :: t.buf.drop (t.i.toNat + 1) := by
    rw [List.set_eq_take_append_cons_drop, if_pos hlt, a4]
  refine ⟨{ t with buf := t.buf.set t.i.toNat 0, disp := e }, t.disp, ?_, ?_, ?_, ?_, ?_,
    ?_, ?_, ?_, a7, he, hev⟩
  · simp only [read_line, ht, hst, print_newline, he]
  · simp only; omega
  · omega
  · simp only [List.length_set]; exact a5
  · simp only
    rw [← a3, take_set_self]
    exact a4
  · simp only
    rw [← a3, List.getElem?_set, if_pos rfl, if_pos hlt]
  · simp only
    rw [hsplit, cstr_append_zero _ _ hpr]
  · simp only [a6, List.nil_append]

theorem collect_run (n : Nat) (rest : List Nat) (k : List Nat) : ∀ line : List Nat,
    (∀ c ∈ k, 32 ≤ c ∧ c ≤ 126) → line.length ≤ n → n ≤ line.length + k.length →
    collect n (k ++ rest) line =
      some ⟨line ++ k.take (n - line.length), k.drop (n - line.length) ++ rest,
        k.take (n - line.length)⟩ := by
  induction k with
  | nil =>
    intro line _ h1 h2
    simp only [List.length_nil, Nat.add_zero] at h2
    rw [List.nil_append, collect_exit _ _ _ (by omega)]
    simp
  | cons c k ih =>
    intro line hp h1 h2
    have hc := hp c (List.mem_cons_self c k)
    by_cases hlt : line.length < n
    · rw [List.cons_append]
      simp only [collect, if_pos hlt, if_neg (show c ≠ 13 by omega),
        if_neg (show c ≠ 8 by omega), if_pos hc]
      rw [ih (line ++ [c]) (fun x hx => hp x (List.mem_cons_of_mem c hx))
        (by rw [List.length_append]; simpa using hlt)
        (by rw [List.length_append]; simp only [List.length_cons] at h2 ⊢
            simp only [List.length_nil]; omega)]
      have e : n - line.length = (n - (line ++ [c]).length) + 1 := by
        rw [List.length_append]; simp only [List.length_cons, List.length_nil]; omega
      rw [e]
      simp
    · rw [collect_exit _ _ _ hlt, show n - line.length = 0 by omega]
      simp

theorem stop_cons (n c : Nat) (rest line unread : List Nat) (h13 : c ≠ 13)
    (h : ∃ consumed, rest = consumed ++ unread ∧
      ((line.length < n ∧ ∃ pre, consumed = pre ++ [13] ∧ 13 ∉ pre) ∨
       (line.length = n ∧ 13 ∉ consumed ∧
          ∃ pre x, consumed = pre ++ [x] ∧ 32 ≤ x ∧ x ≤ 126))) :
    ∃ consumed, c :: rest = consumed ++ unread ∧
      ((line.length < n ∧ ∃ pre, consumed = pre ++ [13] ∧ 13 ∉ pre) ∨
       (line.length = n ∧ 13 ∉ consumed ∧
          ∃ pre x, consumed = pre ++ [x] ∧ 32 ≤ x ∧ x ≤ 126)) := by
  obtain ⟨consumed, hk, hcase⟩ := h
  refine ⟨c :: consumed, by rw [hk]; rfl, ?_⟩
  rcases hcase with ⟨hl, pre, hp, hn⟩ | ⟨hl, hn, pre, x, hp, hx⟩
  · refine Or.inl ⟨hl, c :: pre, by rw [hp]; rfl, ?_⟩
    simp only [List.mem_cons, not_or]
    exact ⟨fun e => h13 e.symm, hn⟩
  · refine Or.inr ⟨hl, ?_, c :: pre, x, by rw [hp]; rfl, hx⟩
    simp only [List.mem_cons, not_or]
    exact ⟨fun e => h13 e.symm, hn⟩

theorem collect_stop (n : Nat) (keys : List Nat) : ∀ line : List Nat,
    line.length < n → 13 ∈ keys →
    ∃ r, collect n keys line = some r ∧ ∃ consumed, keys = consumed ++ r.unread ∧
      ((r.line.length < n ∧ ∃ pre, consumed = pre ++ [13] ∧ 13 ∉ pre) ∨
       (r.line.length = n ∧ 13 ∉ consumed ∧
          ∃ pre x, consumed = pre ++ [x] ∧ 32 ≤ x ∧ x ≤ 126)) := by
  induction keys with
  | nil => intro line _ h; exact absurd h (List.not_mem_nil 13)
  | cons c rest ih =>
    intro line hlt hmem
    by_cases h13 : c = 13
    · refine ⟨⟨line, rest, []⟩, by simp only [collect, if_pos hlt, if_pos h13], [13],
        by rw [h13]; rfl, Or.inl ⟨hlt, [], rfl, List.not_mem_nil 13⟩⟩
    have hrest : 13 ∈ rest := by
      rcases List.mem_cons.1 hmem with h | h
      · exact absurd h.symm h13
      · exact h
    by_cases h8 : c = 8
    · by_cases hi : 0 < line.length
      · obtain ⟨r, hr, hs⟩ := ih line.dropLast
          (by rw [List.length_dropLast]; omega) hrest
        refine ⟨{ r with echo := 8 :: r.echo }, ?_, stop_cons n c rest _ _ h13 hs⟩
        simp only [collect, if_pos hlt, if_neg h13, if_pos h8, if_pos hi, hr,
          Option.map_some']
      · obtain ⟨r, hr, hs⟩ := ih line hlt hrest
        refine ⟨r, ?_, stop_cons n c rest _ _ h13 hs⟩
        simp only [collect, if_pos hlt, if_neg h13, if_pos h8, if_neg hi, hr]
    by_cases hp : 32 ≤ c ∧ c ≤ 126
    · by_cases hfull : (line ++ [c]).length < n
      · obtain ⟨r, hr, hs⟩ := ih (line ++ [c]) hfull hrest
        refine ⟨{ r with echo := c :: r.echo }, ?_, stop_cons n c rest _ _ h13 hs⟩
        simp only [collect, if_pos hlt, if_neg h13, if_neg h8, if_pos hp, hr,
          Option.map_some']
      · have hlen : (line ++ [c]).length = n := by
          rw [List.length_append] at hfull ⊢
          simp only [List.length_cons, List.length_nil] at hfull ⊢
          omega
        refine ⟨⟨line ++ [c], rest, [c]⟩, ?_, [c], rfl,
          Or.inr ⟨hlen, by simpa using fun e : 13 = c => h13 e.symm, [], c, rfl, hp⟩⟩
        simp only [collect, if_pos hlt, if_neg h13, if_neg h8, if_pos hp,
          collect_exit _ _ _ hfull, Option.map_some']
    · obtain ⟨r, hr, hs⟩ := ih line hlt hrest
      refine ⟨r, ?_, stop_cons n c rest _ _ h13 hs⟩
      simp only [collect, if_pos hlt, if_neg h13, if_neg h8, if_neg hp, hr]

theorem collect_fold (n : Nat) (post : List Nat) (pre : List Nat) : ∀ line : List Nat,
    13 ∉ pre →
    (∀ k : Nat, k ≤ pre.length → ((pre.take k).foldl edit_step line).length < n) →
    ∃ echo, collect n (pre ++ 13 :: post) line =
      some ⟨pre.foldl edit_step line, post, echo⟩ := by
  induction pre with
  | nil =>
    intro line _ h
    have h0 := h 0 (Nat.le_refl _)
    simp only [List.take_nil, List.foldl_nil] at h0
    exact ⟨[], by simp only [List.nil_append, collect, if_pos h0, if_true, List.foldl_nil]⟩
  | cons c pre ih =>
    intro line hcr h
    have h0 := h 0 (Nat.zero_le _)
    simp only [List.take_zero, List.foldl_nil] at h0
    have h13 : c ≠ 13 := fun e => hcr (by rw [e]; exact List.mem_cons_self _ _)
    have hcr2 : 13 ∉ pre := fun hm => hcr (List.mem_cons_of_mem _ hm)
    have htail : ∀ k : Nat, k ≤ pre.length →
        ((pre.take k).foldl edit_step (edit_step line c)).length < n := by
      intro k hk
      have := h (k + 1) (by simp only [List.length_cons]; omega)
      simpa only [List.take_succ_cons, List.foldl_cons] using this
    obtain ⟨echo, he⟩ := ih (edit_step line c) hcr2 htail
    rw [List.cons_append, List.foldl_cons]
    by_cases h8 : c = 8
    · have hstep : edit_step line c = line.dropLast := by
        subst h8
        simp [edit_step]
      rw [hstep] at he ⊢
      by_cases hi : 0 < line.length
      · exact ⟨8 :: echo, by
          simp only [collect, if_pos h0, if_neg h13, if_pos h8, if_pos hi, he,
            Option.map_some']⟩
      · have hnil : line = [] := List.eq_nil_of_length_eq_zero (by omega)
        rw [hnil] at he ⊢
        simp only [List.dropLast_nil] at he ⊢
        exact ⟨echo, by
          simp only [collect, List.length_nil, if_pos (by simpa [hnil] using h0),
            if_neg h13, if_pos h8, if_neg (Nat.lt_irrefl 0), he]⟩
    by_cases hp : 32 ≤ c ∧ c ≤ 126
    · have hstep : edit_step line c = line ++ [c] := by
        simp only [edit_step, if_pos hp]
      rw [hstep] at he ⊢
      exact ⟨c :: echo, by
        simp only [collect, if_pos h0, if_neg h13, if_neg h8, if_pos hp, he,
          Option.map_some']⟩
    · have hstep : edit_step line c = line := by
        simp only [edit_step, if_neg hp, if_neg h8]
      rw [hstep] at he ⊢
      exact ⟨echo, by
        simp only [collect, if_pos h0, if_neg h13, if_neg h8, if_neg hp, he]⟩

/-! ## Strings, `strcmp` and the dispatch step -/

theorem cstr_cons (a : Nat) (s : List Nat) :
    cstr (a :: s) = if a = 0 then [] else a :: cstr s := by
  by_cases h : a = 0
  · simp [cstr, h]
  · simp [cstr, List.takeWhile_cons, h]

theorem cstr_nil : cstr [] = [] := rfl

theorem strcmp_zero_iff (s1 : List Nat) : ∀ s2 : List Nat,
    strcmp s1 s2 = 0 ↔ cstr s1 = cstr s2 := by
  induction s1 with
  | nil =>
    intro s2
    cases s2 with
    | nil => simp [strcmp, cstr_nil]
    | cons b s2 =>
      simp only [strcmp, List.headD_cons, cstr_nil, cstr_cons]
      by_cases hb : b = 0
      · simp [hb]
      · rw [if_neg hb]
        constructor
        · intro h; omega
        · intro h; exact absurd h (by simp)
  | cons a s1 ih =>
    intro s2
    cases s2 with
    | nil =>
      simp only [strcmp, List.headD_nil, cstr_nil, cstr_cons]
      by_cases ha : a = 0
      · simp [ha]
      · rw [if_neg (by omega), if_neg ha]
        constructor
        · intro h; omega
        · intro h; exact absurd h (by simp)
    | cons b s2 =>
      simp only [strcmp, List.headD_cons, List.tail_cons, cstr_cons]
      by_cases ha : a = 0
      · rw [if_neg (by omega), if_pos ha]
        by_cases hb : b = 0
        · simp [ha, hb]
        · rw [if_neg hb]
          constructor
          · intro h; omega
          · intro h; exact absurd h (by simp)
      · by_cases hab : a = b
        · subst hab
          rw [if_pos ⟨ha, rfl⟩, if_neg ha, if_neg ha, ih s2]
          simp
        · rw [if_neg (by omega), if_neg ha]
          constructor
          · intro h; omega
          · intro h
            by_cases hb : b = 0
            · rw [if_pos hb] at h; exact absurd h (by simp)
            · rw [if_neg hb] at h
              injection h with h1 _
              exact absurd h1 hab

theorem head_ne_zero_iff (s : List Nat) : s.headD 0 ≠ 0 ↔ cstr s ≠ [] := by
  cases s with
  | nil => simp [cstr_nil]
  | cons a s =>
    simp only [List.headD_cons, cstr_cons]
    by_cases ha : a = 0
    · simp [ha]
    · simp [ha]

theorem matches_iff (input name : List Nat) (hne : name ≠ []) (hz : cstr name = name) :
    (input.headD 0 ≠ 0 ∧ strcmp input name = 0) ↔ cstr input = name := by
  rw [head_ne_zero_iff, strcmp_zero_iff, hz]
  constructor
  · exact fun h => h.2
  · exact fun h => ⟨by rw [h]; exact hne, h⟩

theorem cstr_nonzero (s : List Nat) : ∀ c ∈ cstr s, c ≠ 0 := by
  intro c hc
  have := List.mem_takeWhile_imp hc
  simpa using this

theorem cstr_of_nonzero (s : List Nat) (h : ∀ c ∈ s, c ≠ 0) : cstr s = s := by
  induction s with
  | nil => rfl
  | cons a s ih =>
    rw [cstr_cons, if_neg (h a (List.mem_cons_self a s)),
      ih (fun c hc => h c (List.mem_cons_of_mem a hc))]

theorem print_eq_chars (s : List Nat) : ∀ d : Display,
    print d s = print_chars d (cstr s) := by
  induction s with
  | nil => intro d; rfl
  | cons c s ih =>
    intro d
    by_cases hc : c = 0
    · rw [cstr_cons, if_pos hc]
      simp only [print, if_pos hc, print_chars]
    · rw [cstr_cons, if_neg hc]
      simp only [print, if_neg hc, print_chars]
      cases print_char d c with
      | error e => rfl
      | ok d1 => exact ih d1

theorem call_ok (f : Handler) (m : Machine) (hv : m.disp.valid) :
    ∃ m1, call f m = .ok m1 ∧ m1.invoked = m.invoked ++ [f] ∧ m1.disp.valid := by
  cases f with
  | cmd_restart =>
    obtain ⟨d, hd, hdv⟩ := print_valid (bytes "Restarting...\n") m.disp hv
    exact ⟨{ disp := d, invoked := m.invoked ++ [.cmd_restart],
             traps := m.traps ++ [.int19] }, by simp only [call, cmd_restart, hd], rfl, hdv⟩
  | cmd_shutdown =>
    obtain ⟨d, hd, hdv⟩ := print_valid (bytes "Attempting shutdown...\n") m.disp hv
    exact ⟨{ disp := d, invoked := m.invoked ++ [.cmd_shutdown],
             traps := m.traps ++ [.int15_5307] },
      by simp only [call, cmd_shutdown, hd], rfl, hdv⟩
  | cmd_clear =>
    exact ⟨{ disp := filled 0x0720 0, invoked := m.invoked ++ [.cmd_clear],
             traps := m.traps },
      by simp only [call, cmd_clear, clear_screen_ok m.disp hv.1], rfl,
      filled_valid _ _ (le_refl _) (by decide)⟩

theorem dispatch_match (input : List Nat) (m : Machine) (cmd : Command)
    (hmem : cmd ∈ commands) (h : cstr input = cmd.name) (hv : m.disp.valid) :
    dispatch input m = call cmd.func m := by
  have m1 := matches_iff input (bytes "restart") (by decide) (by decide)
  have m2 := matches_iff input (bytes "shutdown") (by decide) (by decide)
  have m3 := matches_iff input (bytes "clear") (by decide) (by decide)
  simp only [commands, List.mem_cons, List.mem_singleton, List.not_mem_nil, or_false] at hmem
  obtain ⟨m1', hc, _, _⟩ := call_ok cmd.func m hv
  rcases hmem with e | e | e <;> subst e <;> simp only at h hc ⊢
  · simp only [dispatch, commands, scan, if_pos (m1.2 h), hc]
    rfl
  · have n1 : ¬ (input.headD 0 ≠ 0 ∧ strcmp input (bytes "restart") = 0) := by
      rw [m1, h]; decide
    simp only [dispatch, commands, scan, if_neg n1, if_pos (m2.2 h), hc]
    rfl
  · have n1 : ¬ (input.headD 0 ≠ 0 ∧ strcmp input (bytes "restart") = 0) := by
      rw [m1, h]; decide
    have n2 : ¬ (input.headD 0 ≠ 0 ∧ strcmp input (bytes "shutdown") = 0) := by
      rw [m2, h]; decide
    simp only [dispatch, commands, scan, if_neg n1, if_neg n2, if_pos (m3.2 h), hc]
    rfl

theorem dispatch_unknown (input : List Nat) (m : Machine)
    (h : ∀ cmd ∈ commands, cstr input ≠ cmd.name) (hv : m.disp.valid) :
    ∃ d, print m.disp (bytes "Unknown command: " ++ cstr input ++ bytes "\n") = .ok d ∧
      dispatch input m = .ok { m with disp := d } ∧ d.valid := by
  have m1 := matches_iff input (bytes "restart") (by decide) (by decide)
  have m2 := matches_iff input (bytes "shutdown") (by decide) (by decide)
  have m3 := matches_iff input (bytes "clear") (by decide) (by decide)
  have n1 : ¬ (input.headD 0 ≠ 0 ∧ strcmp input (bytes "restart") = 0) := by
    rw [m1]; exact h ⟨_, .cmd_restart⟩ (List.mem_cons_self _ _)
  have n2 : ¬ (input.headD 0 ≠ 0 ∧ strcmp input (bytes "shutdown") = 0) := by
    rw [m2]
    exact h ⟨_, .cmd_shutdown⟩ (List.mem_cons_of_mem _ (List.mem_cons_self _ _))
  have n3 : ¬ (input.headD 0 ≠ 0 ∧ strcmp input (bytes "clear") = 0) := by
    rw [m3]
    exact h ⟨_, .cmd_clear⟩
      (List.mem_cons_of_mem _ (List.mem_cons_of_mem _ (List.mem_cons_self _ _)))
  have hU : cstr (bytes "Unknown command: ") = bytes "Unknown command: " := by decide
  have hN : cstr (bytes "\n") = bytes "\n" := by decide
  have hall : cstr (bytes "Unknown command: " ++ cstr input ++ bytes "\n") =
      bytes "Unknown command: " ++ cstr input ++ bytes "\n" := by
    apply cstr_of_nonzero
    intro c hc
    rcases List.mem_append.1 hc with hc | hc
    · rcases List.mem_append.1 hc with hc | hc
      · rw [← hU] at hc; exact cstr_nonzero _ c hc
      · exact cstr_nonzero _ c hc
    · rw [← hN] at hc; exact cstr_nonzero _ c hc
  obtain ⟨d1, hd1, v1⟩ := print_valid (bytes "Unknown command: ") m.disp hv
  obtain ⟨d2, hd2, v2⟩ := print_valid input d1 v1
  obtain ⟨d3, hd3, v3⟩ := print_valid (bytes "\n") d2 v2
  refine ⟨d3, ?_, ?_, v3⟩
  · rw [print_eq_chars, hU] at hd1
    rw [print_eq_chars] at hd2
    rw [print_eq_chars, hN] at hd3
    rw [print_eq_chars, hall, print_chars_append, print_chars_append, hd1]
    simp only [hd2, hd3]
  · simp only [dispatch, commands, scan, if_neg n1, if_neg n2, if_neg n3, hd1, hd2, hd3]
    rfl

/-! ## Display driver: the rules of `print_char` -/

theorem print_char_backspace (d : Display) (h : d.valid) (hpos : 0 < d.cursor) :
    print_char d 8 =
      .ok { video := d.video.set (d.cursor - 1).toNat 0x0720, cursor := d.cursor - 1 } := by
  obtain ⟨hlen, h0, h1⟩ := h
  simp only [print_char, if_neg (show (8 : Nat) ≠ 10 by decide),
    if_neg (show (8 : Nat) ≠ 13 by decide), if_pos, if_pos (show d.cursor > 0 from hpos)]
  rw [video_store_ok _ _ _ (by omega) (by omega)]

theorem print_char_newline (d : Display) (h : d.valid) :
    print_char d 10 = scroll_check { d with cursor := 80 * (d.cursor / 80 + 1) } := by
  obtain ⟨_, h0, _⟩ := h
  have hdiv : d.cursor.tdiv 80 = d.cursor / 80 := Int.tdiv_eq_ediv h0 (by decide)
  simp only [print_char, if_pos, width_int, hdiv]
  congr 2
  omega

theorem print_char_return (d : Display) (h : d.valid) :
    print_char d 13 = .ok { d with cursor := d.cursor - d.cursor % 80 } := by
  obtain ⟨_, h0, h1⟩ := h
  rw [size_int] at h1
  have hdiv : d.cursor.tdiv 80 = d.cursor / 80 := Int.tdiv_eq_ediv h0 (by decide)
  simp only [print_char, if_neg (show (13 : Nat) ≠ 10 by decide), if_pos, width_int, hdiv,
    scroll_check]
  rw [if_neg (by simp only [size_int]; omega)]
  congr 2
  omega

/-! ## The line editor on the display -/

theorem read_step (max_len : Int) (p : Nat) (v0 : List Nat) (s : Editor) (c : Nat)
    (hp : (p : Int) + max_len ≤ 2000) (ht : s.tracks max_len p v0)
    (hlt : s.i < max_len - 1) (h13 : c ≠ 13) :
    ∃ s1 : Editor, s1.tracks max_len p v0 ∧
      ∀ rest, read_loop max_len (c :: rest) s = read_loop max_len rest s1 := by
  obtain ⟨h0, h1, hb, hlen, hcur, hshow, hbefore, hafter⟩ := ht
  have hv : s.disp.valid := ⟨hlen, by omega, by rw [size_int]; omega⟩
  have hlen2 : s.disp.video.length = 2000 := hlen
  by_cases h8 : c = 8
  · by_cases hi : s.i > 0
    · have hbs := print_char_backspace s.disp hv (by omega)
      have hidx : (s.disp.cursor - 1).toNat = p + (s.i.toNat - 1) := by omega
      rw [hidx] at hbs
      refine ⟨{ s with i := s.i - 1, echoed := s.echoed ++ [8],
                       disp := { video := s.disp.video.set (p + (s.i.toNat - 1)) 0x0720,
                                 cursor := s.disp.cursor - 1 } }, ?_, fun rest => ?_⟩
      · refine ⟨by simp only; omega, by simp only; omega, hb,
          by simp only [List.length_set]; exact hlen, by simp only; omega,
          fun j hj => ?_, fun j hj => ?_, fun j hj => ?_⟩
        · simp only at hj ⊢
          rw [List.getElem?_set, if_neg (by omega)]
          exact hshow j (by omega)
        · simp only
          rw [List.getElem?_set, if_neg (by omega)]
          exact hbefore j hj
        · simp only at hj ⊢
          rw [List.getElem?_set]
          by_cases he : p + (s.i.toNat - 1) = j
          · rw [if_pos he, if_pos (by omega)]
            exact Or.inr rfl
          · rw [if_neg he]
            exact hafter j (by omega)
      · subst h8
        simp only [read_loop, if_pos hlt, if_neg h13, if_pos, if_pos hi, hbs]
    · exact ⟨s, ⟨h0, h1, hb, hlen, hcur, hshow, hbefore, hafter⟩, fun rest => by
        subst h8
        simp only [read_loop, if_pos hlt, if_neg h13, if_pos, if_neg hi]⟩
  by_cases hpr : 32 ≤ c ∧ c ≤ 126
  · have hst : buf_store s.buf s.i c = .ok (s.buf.set s.i.toNat c) :=
      buf_store_ok _ _ _ h0 (by omega)
    have hpc : print_char s.disp c =
        .ok { video := s.disp.video.set (p + s.i.toNat) (char_cell c),
              cursor := s.disp.cursor + 1 } := by
      rw [print_char_plain s.disp c hv (by omega) (by omega) (by omega)]
      simp only [scroll_check]
      rw [if_neg (by simp only [size_int]; omega),
        show s.disp.cursor.toNat = p + s.i.toNat by omega]
    refine ⟨{ buf := s.buf.set s.i.toNat c, i := s.i + 1,
              disp := { video := s.disp.video.set (p + s.i.toNat) (char_cell c),
                        cursor := s.disp.cursor + 1 },
              echoed := s.echoed ++ [c] }, ?_, fun rest => ?_⟩
    · refine ⟨by simp only; omega, by simp only; omega,
        by simp only [List.length_set]; exact hb,
        by simp only [List.length_set]; exact hlen, by simp only; omega,
        fun j hj => ?_, fun j hj => ?_, fun j hj => ?_⟩
      · simp only at hj ⊢
        rw [List.getElem?_set, List.getElem?_set]
        by_cases he : s.i.toNat = j
        · rw [if_pos (by omega), if_pos he, if_pos (by omega), if_pos (by omega)]
          rfl
        · rw [if_neg (by omega), if_neg he]
          exact hshow j (by omega)
      · simp only
        rw [List.getElem?_set, if_neg (by omega)]
        exact hbefore j hj
      · simp only at hj ⊢
        rw [List.getElem?_set, if_neg (by omega)]
        exact hafter j (by omega)
    · simp only [read_loop, if_pos hlt, if_neg h13, if_neg h8, if_pos hpr, hst, hpc]
  · exact ⟨s, ⟨h0, h1, hb, hlen, hcur, hshow, hbefore, hafter⟩, fun rest => by
      simp only [read_loop, if_pos hlt, if_neg h13, if_neg h8, if_neg hpr]⟩

theorem read_loop_tracks (max_len : Int) (p : Nat) (v0 : List Nat)
    (hp : (p : Int) + max_len ≤ 2000) (keys : List Nat) :
    ∀ (s t : Editor) (rest : List Nat), s.tracks max_len p v0 →
    read_loop max_len keys s = .ok (t, rest) → t.tracks max_len p v0 := by
  induction keys with
  | nil =>
    intro s t rest ht h
    by_cases hlt : s.i < max_len - 1
    · simp [read_loop, hlt] at h
    · rw [read_loop_exit _ _ _ hlt] at h
      injection h with h
      injection h with h1 _
      rw [← h1]; exact ht
  | cons c keys ih =>
    intro s t rest ht h
    by_cases hlt : s.i < max_len - 1
    · by_cases h13 : c = 13
      · simp only [read_loop, if_pos hlt, if_pos h13] at h
        injection h with h
        injection h with h1 _
        rw [← h1]; exact ht
      · obtain ⟨s1, ht1, hs1⟩ := read_step max_len p v0 s c hp ht hlt h13
        rw [hs1 keys] at h
        exact ih s1 t rest ht1 h
    · rw [read_loop_exit _ _ _ hlt] at h
      injection h with h
      injection h with h1 _
      rw [← h1]; exact ht

theorem tracks_start (max_len : Int) (p : Nat) (buf : List Nat) (d : Display)
    (h1 : 1 ≤ max_len) (hb : max_len ≤ buf.length) (hlen : d.video.length = SCREEN_SIZE)
    (hcur : d.cursor = p) :
    Editor.tracks max_len p d.video { buf := buf, i := 0, disp := d, echoed := [] } :=
  ⟨le_refl _, by simp only; omega, hb, hlen, by simp only; omega,
    fun j hj => absurd hj (by simp), fun _ _ => rfl, fun _ _ => Or.inl rfl⟩

theorem read_line_tracks (keys buf : List Nat) (max_len : Int) (p : Nat) (d : Display)
    (t : Editor) (rest : List Nat) (h1 : 1 ≤ max_len) (hb : max_len ≤ buf.length)
    (hlen : d.video.length = SCREEN_SIZE) (hcur : d.cursor = p)
    (hp : (p : Int) + max_len ≤ 2000) (hrow : ((p : Int) + max_len - 1) / 80 < 24)
    (hret : read_line keys buf max_len d = .ok (t, rest)) :
    ∃ s : Editor, s.tracks max_len p d.video ∧ t.i = s.i ∧
      t.buf = s.buf.set s.i.toNat 0 ∧ t.disp.video = s.disp.video ∧
      t.disp.cursor = 80 * (((p : Int) + s.i) / 80 + 1) := by
  cases hl : read_loop max_len keys { buf := buf, i := 0, disp := d, echoed := [] } with
  | error e => simp [read_line, hl] at hret
  | ok pr =>
    obtain ⟨s, rs⟩ := pr
    have ht := read_loop_tracks max_len p d.video hp keys _ s rs
      (tracks_start max_len p buf d h1 hb hlen hcur) hl
    have ht2 := ht
    obtain ⟨h0, hi1, hb2, hlen2, hcur2, _, _, _⟩ := ht2
    have hv : s.disp.valid := ⟨hlen2, by omega, by rw [size_int]; omega⟩
    have hst : buf_store s.buf s.i 0 = .ok (s.buf.set s.i.toNat 0) :=
      buf_store_ok _ _ _ h0 (by omega)
    have hnl : print_char s.disp 10 =
        .ok { s.disp with cursor := 80 * (s.disp.cursor / 80 + 1) } := by
      rw [print_char_newline s.disp hv]
      simp only [scroll_check]
      rw [if_neg (by simp only [size_int]; omega)]
    simp only [read_line, hl, hst, print_newline, hnl] at hret
    injection hret with hret
    injection hret with e1 _
    subst e1
    exact ⟨s, ht, rfl, rfl, rfl, by simp only [hcur2]⟩

/-! ## The main loop of `kernel_main` -/

theorem row_start_valid (d : Display) (h : d.at_row_start) : d.valid :=
  ⟨h.1, h.2.1, by rw [size_int]; have := h.2.2.1; omega⟩

theorem newline_row_start (d : Display) (h : d.valid) :
    ∃ e, print_char d 10 = .ok e ∧ e.at_row_start := by
  obtain ⟨hlen, h0, h1⟩ := h
  rw [size_int] at h1
  rw [print_char_newline d ⟨hlen, h0, by rw [size_int]; exact h1⟩]
  by_cases hs : 80 * (d.cursor / 80 + 1) ≥ 2000
  · refine ⟨{ video := d.video.drop 80 ++ List.replicate 80 0x0720, cursor := 1920 }, ?_, ?_⟩
    · simp only [scroll_check]
      rw [if_pos (by simp only [size_int]; exact hs)]
      exact scroll_eq _ hlen
    · refine ⟨?_, by show (0 : Int) ≤ 1920; decide, le_refl _,
        by show (1920 : Int) % 80 = 0; decide⟩
      simp only [List.length_append, List.length_drop, hlen, List.length_replicate]
      rfl
  · refine ⟨{ d with cursor := 80 * (d.cursor / 80 + 1) }, ?_, hlen, ?_, ?_, ?_⟩
    · simp only [scroll_check]
      rw [if_neg (by simp only [size_int]; exact hs)]
    · show 0 ≤ 80 * (d.cursor / 80 + 1)
      omega
    · show 80 * (d.cursor / 80 + 1) ≤ 1920
      omega
    · show 80 * (d.cursor / 80 + 1) % 80 = 0
      omega

theorem print_chars_line (s : List Nat) (d : Display) (h : d.valid) :
    ∃ e, print_chars d (s ++ [10]) = .ok e ∧ e.at_row_start := by
  obtain ⟨d1, hd1, v1⟩ := print_chars_valid s d h
  obtain ⟨e, he, hr⟩ := newline_row_start d1 v1
  refine ⟨e, ?_, hr⟩
  rw [print_chars_append, hd1]
  simp only [print_chars, he]

theorem print_line (s : List Nat) (d : Display) (hs : ∀ c ∈ s, c ≠ 0) (h : d.valid) :
    ∃ e, print d (s ++ [10]) = .ok e ∧ e.at_row_start := by
  obtain ⟨e, he, hr⟩ := print_chars_line s d h
  refine ⟨e, ?_, hr⟩
  rw [print_eq_chars, cstr_of_nonzero _ (fun c hc => ?_)]
  · exact he
  · rcases List.mem_append.1 hc with hc | hc
    · exact hs c hc
    · rw [List.mem_singleton.1 hc]; decide

theorem filled_row_start (x : Nat) : (filled x 0).at_row_start :=
  ⟨List.length_replicate _ _, le_refl _, by show (0 : Int) ≤ 1920; decide,
    by show (0 : Int) % 80 = 0; decide⟩

theorem call_row_start (f : Handler) (m : Machine) (hv : m.disp.valid) :
    ∃ m1, call f m = .ok m1 ∧ m1.disp.at_row_start := by
  cases f with
  | cmd_restart =>
    obtain ⟨d, hd, hr⟩ := print_line (bytes "Restarting...") m.disp (by decide) hv
    have hs : bytes "Restarting..." ++ [10] = bytes "Restarting...\n" := by decide
    rw [hs] at hd
    exact ⟨{ disp := d, invoked := m.invoked ++ [.cmd_restart],
             traps := m.traps ++ [.int19] }, by simp only [call, cmd_restart, hd], hr⟩
  | cmd_shutdown =>
    obtain ⟨d, hd, hr⟩ := print_line (bytes "Attempting shutdown...") m.disp (by decide) hv
    have hs : bytes "Attempting shutdown..." ++ [10] = bytes "Attempting shutdown...\n" := by
      decide
    rw [hs] at hd
    exact ⟨{ disp := d, invoked := m.invoked ++ [.cmd_shutdown],
             traps := m.traps ++ [.int15_5307] },
      by simp only [call, cmd_shutdown, hd], hr⟩
  | cmd_clear =>
    exact ⟨{ disp := filled 0x0720 0, invoked := m.invoked ++ [.cmd_clear],
             traps := m.traps },
      by simp only [call, cmd_clear, clear_screen_ok m.disp hv.1], filled_row_start _⟩

theorem dispatch_row_start (input : List Nat) (m : Machine) (hv : m.disp.valid) :
    ∃ m1, dispatch input m = .ok m1 ∧ m1.disp.at_row_start := by
  by_cases hm : ∃ cmd ∈ commands, cstr input = cmd.name
  · obtain ⟨cmd, hmem, hname⟩ := hm
    rw [dispatch_match input m cmd hmem hname hv]
    exact call_row_start cmd.func m hv
  · have hno : ∀ cmd ∈ commands, cstr input ≠ cmd.name :=
      fun cmd hmem hname => hm ⟨cmd, hmem, hname⟩
    obtain ⟨d, hd, hdis, _⟩ := dispatch_unknown input m hno hv
    obtain ⟨e, he, hr⟩ := print_line (bytes "Unknown command: " ++ cstr input) m.disp
      (fun c hc => by
        rcases List.mem_append.1 hc with hc | hc
        · have hU : cstr (bytes "Unknown command: ") = bytes "Unknown command: " := by decide
          rw [← hU] at hc
          exact cstr_nonzero _ c hc
        · exact cstr_nonzero _ c hc) hv
    have hN : bytes "\n" = [10] := by decide
    rw [hN, he] at hd
    injection hd with hd
    subst hd
    exact ⟨_, hdis, hr⟩

theorem loop_body_cases (s : Shell) (hr : s.m.disp.at_row_start)
    (hin : s.input.length = 16) :
    (collect 15 s.keys [] = none → loop_body s = .error .key_wait) ∧
    (∀ r, collect 15 s.keys [] = some r →
      ∃ s1, loop_body s = .ok s1 ∧ s1.m.disp.at_row_start ∧ s1.input.length = 16 ∧
        s1.keys = r.unread) := by
  obtain ⟨d1, hd1, v1⟩ := print_valid (bytes "> ") s.m.disp (row_start_valid _ hr)
  have hrc := read_line_collect s.keys s.input 16 d1 (by decide) (by rw [hin]; decide) v1
  have h15 : ((16 : Int) - 1).toNat = 15 := by decide
  rw [h15] at hrc
  refine ⟨fun hn => ?_, fun r hq => ?_⟩
  · simp only [loop_body, hd1, hrc.1 hn]
  · obtain ⟨t, _, a1, _, _, a4, _, _, _, _, _, _, a11⟩ := hrc.2 r hq
    obtain ⟨m1, hm1, hr1⟩ := dispatch_row_start t.buf { s.m with disp := t.disp } a11
    exact ⟨{ m := m1, input := t.buf, keys := r.unread },
      by simp only [loop_body, hd1, a1, hm1], hr1, by rw [a4, hin], rfl⟩

theorem main_loop_row_start (n : Nat) : ∀ s s1 : Shell, s.m.disp.at_row_start →
    s.input.length = 16 → main_loop n s = .ok s1 →
    s1.m.disp.at_row_start ∧ s1.input.length = 16 := by
  induction n with
  | zero =>
    intro s s1 hr hin h
    injection h with h
    subst h
    exact ⟨hr, hin⟩
  | succ n ih =>
    intro s s1 hr hin h
    have hc := loop_body_cases s hr hin
    cases hq : collect 15 s.keys [] with
    | none => simp [main_loop, hc.1 hq] at h
    | some r =>
      obtain ⟨s2, h2, hr2, hin2, _⟩ := hc.2 r hq
      simp only [main_loop, h2] at h
      exact ih s2 s1 hr2 hin2 h

theorem kernel_start_row_start (d : Display) (h : d.video.length = SCREEN_SIZE) :
    ∃ m, kernel_start d = .ok m ∧ m.disp.at_row_start := by
  obtain ⟨e, he, hr⟩ := print_line (bytes "SimpleOS v0.5 - Freestanding Terminal")
    (filled 0x0720 0) (by decide) (filled_valid _ _ (le_refl _) (by decide))
  have hs : bytes "SimpleOS v0.5 - Freestanding Terminal" ++ [10] =
      bytes "SimpleOS v0.5 - Freestanding Terminal\n" := by decide
  rw [hs] at he
  exact ⟨{ disp := e, invoked := [], traps := [] },
    by simp only [kernel_start, clear_screen_ok d h, he], hr⟩

theorem prompt_shown (d : Display) (p : Nat) (hr : d.at_row_start) (hcur : d.cursor = p) :
    ∃ w, print d (bytes "> ") = .ok { video := w, cursor := ((p + 2 : Nat) : Int) } ∧
      w.length = SCREEN_SIZE ∧ w[p]? = some (char_cell 62) ∧
      w[p + 1]? = some (char_cell 32) := by
  obtain ⟨hlen, h0, h1, _⟩ := hr
  have hb : bytes "> " = [62, 32] := by decide
  obtain ⟨w, hw, hl, hg⟩ := print_chars_run [62, 32] d.video p (by decide) hlen
    (by rw [size_nat]; simp only [List.length_cons, List.length_nil]; omega)
  have hd : d = { video := d.video, cursor := (p : Int) } := by rw [← hcur]
  refine ⟨w, ?_, hl, ?_, ?_⟩
  · rw [print_eq_chars, hb, cstr_of_nonzero _ (by decide), hd]
    exact hw
  · rw [hg p, if_pos (by simp), Nat.sub_self]
    rfl
  · rw [hg (p + 1), if_pos (by simp), show p + 1 - p = 1 by omega]
    rfl

/-! ## `strcmp` on strings without the byte 0 -/

theorem strcmp_counted_fst (a : List Nat) : ∀ b : List Nat,
    (strcmp_counted a b).1 = strcmp a b := by
  induction a with
  | nil => intro b; rfl
  | cons x a ih =>
    intro b
    by_cases h : x ≠ 0 ∧ x = b.headD 0
    · simp only [strcmp_counted, strcmp, if_pos h]; exact ih _
    · simp only [strcmp_counted, strcmp, if_neg h]

theorem strcmp_counted_snd (a : List Nat) : ∀ b : List Nat, (∀ c ∈ a, c ≠ 0) →
    (strcmp_counted a b).2 ≤ min a.length b.length + 1 := by
  induction a with
  | nil => intro b _; simp [strcmp_counted]
  | cons x a ih =>
    intro b ha
    cases b with
    | nil =>
      have hx := ha x (List.mem_cons_self x a)
      simp only [strcmp_counted, List.headD_nil]
      rw [if_neg (by omega)]
      simp
    | cons y b =>
      by_cases h : x ≠ 0 ∧ x = y
      · have := ih b (fun c hc => ha c (List.mem_cons_of_mem x hc))
        simp only [strcmp_counted, List.headD_cons, List.tail_cons, if_pos h,
          List.length_cons]
        omega
      · simp only [strcmp_counted, List.headD_cons, if_neg h]
        omega

theorem strcmp_first_diff (a : List Nat) : ∀ b : List Nat, (∀ c ∈ a, c ≠ 0) →
    (∀ c ∈ b, c ≠ 0) → a ≠ b →
    ∃ k : Nat, k ≤ a.length ∧ k ≤ b.length ∧ a.take k = b.take k ∧
      a.getD k 0 ≠ b.getD k 0 ∧ strcmp a b = (a.getD k 0 : Int) - (b.getD k 0 : Nat) := by
  induction a with
  | nil =>
    intro b _ hb hne
    cases b with
    | nil => exact absurd rfl hne
    | cons y b =>
      have hy := hb y (List.mem_cons_self y b)
      exact ⟨0, Nat.le_refl _, Nat.zero_le _, rfl, by simpa using fun e : 0 = y => hy e.symm,
        by simp [strcmp]⟩
  | cons x a ih =>
    intro b ha hb hne
    have hx := ha x (List.mem_cons_self x a)
    cases b with
    | nil =>
      refine ⟨0, Nat.zero_le _, Nat.le_refl _, rfl, by simpa using hx, ?_⟩
      simp only [strcmp, List.headD_nil]
      rw [if_neg (by omega)]
      simp
    | cons y b =>
      by_cases hxy : x = y
      · subst hxy
        obtain ⟨k, h1, h2, h3, h4, h5⟩ := ih b
          (fun c hc => ha c (List.mem_cons_of_mem x hc))
          (fun c hc => hb c (List.mem_cons_of_mem x hc))
          (fun e => hne (by rw [e]))
        refine ⟨k + 1, by simpa using h1, by simpa using h2, by simp [h3], by simpa using h4,
          ?_⟩
        simp only [strcmp, List.headD_cons, List.tail_cons]
        rw [if_pos ⟨hx, trivial⟩, h5]
        simp
      · refine ⟨0, Nat.zero_le _, Nat.zero_le _, rfl, by simpa using hxy, ?_⟩
        simp only [strcmp, List.headD_cons]
        rw [if_neg (fun h => hxy h.2)]
        simp

theorem strcmp_prefix_neg (a : List Nat) : ∀ b : List Nat, (∀ c ∈ a, c ≠ 0) →
    (∀ c ∈ b, c ≠ 0) → a <+: b → a ≠ b → strcmp a b < 0 := by
  induction a with
  | nil =>
    intro b _ hb _ hne
    cases b with
    | nil => exact absurd rfl hne
    | cons y b =>
      have hy := hb y (List.mem_cons_self y b)
      simp only [strcmp, List.headD_cons]
      omega
  | cons x a ih =>
    intro b ha hb hp hne
    have hx := ha x (List.mem_cons_self x a)
    cases b with
    | nil => exact absurd (List.prefix_nil.1 hp) (by simp)
    | cons y b =>
      obtain ⟨hxy, hp2⟩ := List.cons_prefix_cons.1 hp
      subst hxy
      simp only [strcmp, List.headD_cons, List.tail_cons]
      rw [if_pos ⟨hx, trivial⟩]
      exact ih b (fun c hc => ha c (List.mem_cons_of_mem x hc))
        (fun c hc => hb c (List.mem_cons_of_mem x hc)) hp2 (fun e => hne (by rw [e]))

/-! ## Claims -/

/-- C1. Cursor bound invariant: from a display of 2000 cells with
`0 ≤ cursor < 2000`, `print_char c` returns, for every character `c`, a display
of 2000 cells with `0 ≤ cursor < 2000`; so does `print s` for every string `s`;
`scroll` and `clear_screen` do so from any cursor value. -/
theorem cursor_bound_invariant :
    (∀ (d : Display) (c : Nat), d.valid → ∃ e, print_char d c = .ok e ∧ e.valid) ∧
    (∀ (d : Display) (s : List Nat), d.valid → ∃ e, print d s = .ok e ∧ e.valid) ∧
    (∀ d : Display, d.video.length = SCREEN_SIZE → ∃ e, scroll d = .ok e ∧ e.valid) ∧
    (∀ d : Display, d.video.length = SCREEN_SIZE →
      ∃ e, clear_screen d = .ok e ∧ e.valid) := by
  refine ⟨print_char_valid, fun d s h => print_valid s d h, fun d h => ?_, fun d h => ?_⟩
  · obtain ⟨w, hw, hl, _, _⟩ := scroll_ok d h
    exact ⟨_, hw, hl, by simp, by simp⟩
  · exact ⟨_, clear_screen_ok d h, filled_valid _ _ (le_refl _) (by decide)⟩

theorem cursor_bound_invariant_witness :
    (filled 0x0720 1999).valid ∧
    (∃ e, print_char (filled 0x0720 1999) 65 = .ok e ∧ e.valid) ∧
    (∃ e, print (filled 0x0720 1999) (bytes "ok\n") = .ok e ∧ e.valid) ∧
    (∃ e, scroll (filled 7 (-5)) = .ok e ∧ e.valid) ∧
    (∃ e, clear_screen (filled 7 5000) = .ok e ∧ e.valid) :=
  ⟨filled_valid _ _ (by decide) (by decide),
    cursor_bound_invariant.1 (filled 0x0720 1999) 65
      (filled_valid _ _ (by decide) (by decide)),
    cursor_bound_invariant.2.1 (filled 0x0720 1999) (bytes "ok\n")
      (filled_valid _ _ (by decide) (by decide)),
    cursor_bound_invariant.2.2.1 (filled 7 (-5)) (List.length_replicate _ _),
    cursor_bound_invariant.2.2.2 (filled 7 5000) (List.length_replicate _ _)⟩

/-- C2, counterexample. With capacity 3, on the keystrokes `a`, `b`, `c`,
carriage return, `read_line` returns the line `ab` having read two keystrokes
only: `c` and the carriage return are left unread, and the next `read_line`
returns the line `c`. -/
theorem overflow_ends_the_read :
    ∃ t, read_line [97, 98, 99, 13] [0, 0, 0] 3 (filled 0x0720 0) = .ok (t, [99, 13]) ∧
      cstr t.buf = [97, 98] ∧
      ∃ u, read_line [99, 13] [0, 0, 0] 3 t.disp = .ok (u, []) ∧ cstr u.buf = [99] := by
  obtain ⟨t, _, h1, _, _, _, _, _, h7, _, _, _, hv⟩ :=
    (read_line_collect [97, 98, 99, 13] [0, 0, 0] 3 (filled 0x0720 0) (by decide)
      (by decide) (filled_valid _ _ (by decide) (by decide))).2
      ⟨[97, 98], [99, 13], [97, 98]⟩ (by decide)
  obtain ⟨u, _, g1, _, _, _, _, _, g7, _⟩ :=
    (read_line_collect [99, 13] [0, 0, 0] 3 t.disp (by decide) (by decide) hv).2
      ⟨[99], [], [99]⟩ (by decide)
  exact ⟨t, h1, h7, u, g1, g7⟩

/-- C2, amended. For every capacity `cap ≥ 2` and every keystroke sequence that
contains a carriage return, `read_line` returns, having consumed a prefix of the
sequence that ends either with the first carriage return, the line being
shorter than `cap - 1`, or with the printable keystroke that brings the line
to `cap - 1` bytes, no carriage return having been read; every later keystroke
is left unread. -/
theorem read_ends_at_accept_or_full (cap : Nat) (keys buf : List Nat) (d : Display)
    (hcap : 2 ≤ cap) (hcr : 13 ∈ keys) (hb : buf.length = cap) (hd : d.valid) :
    ∃ t unread consumed, read_line keys buf cap d = .ok (t, unread) ∧
      keys = consumed ++ unread ∧
      (((cstr t.buf).length < cap - 1 ∧ ∃ pre, consumed = pre ++ [13] ∧ 13 ∉ pre) ∨
       ((cstr t.buf).length = cap - 1 ∧ 13 ∉ consumed ∧
          ∃ pre x, consumed = pre ++ [x] ∧ 32 ≤ x ∧ x ≤ 126)) := by
  have hn1 : ((cap : Int) - 1).toNat = cap - 1 := by omega
  obtain ⟨r, hr, consumed, hk, hcase⟩ := collect_stop (cap - 1) keys []
    (by simp only [List.length_nil]; omega) hcr
  obtain ⟨t, _, h1, _, _, _, _, _, h7, _⟩ :=
    (read_line_collect keys buf cap d (by omega) (by omega) hd).2 r (by rw [hn1]; exact hr)
  exact ⟨t, r.unread, consumed, h1, hk, by rw [h7]; exact hcase⟩

theorem read_ends_at_accept_or_full_witness :
    ∃ t unread consumed,
      read_line [97, 8, 98, 99, 100, 13] [0, 0, 0] (3 : Nat) (filled 0x0720 0) =
        .ok (t, unread) ∧
      [97, 8, 98, 99, 100, 13] = consumed ++ unread ∧
      (((cstr t.buf).length < 3 - 1 ∧ ∃ pre, consumed = pre ++ [13] ∧ 13 ∉ pre) ∨
       ((cstr t.buf).length = 3 - 1 ∧ 13 ∉ consumed ∧
          ∃ pre x, consumed = pre ++ [x] ∧ 32 ≤ x ∧ x ≤ 126)) :=
  read_ends_at_accept_or_full 3 [97, 8, 98, 99, 100, 13] [0, 0, 0] (filled 0x0720 0)
    (by decide) (by decide) (by decide) (filled_valid _ _ (by decide) (by decide))

/-- C3. Scroll-on-fill: after `clear_screen`, applying `print_char` to the 2000
printable characters `s[0]`, ..., `s[1999]` in order leaves the cursor at 1920,
cell `i` holding the glyph `s[i + 80]` for every `i < 1920`, and the cells 1920
to 1999 blank. -/
theorem scroll_on_fill (s : List Nat) (d0 : Display) (hlen : s.length = 2000)
    (hp : ∀ c ∈ s, 32 ≤ c ∧ c ≤ 126) (h0 : d0.video.length = 2000) :
    ∃ d1 e, clear_screen d0 = .ok d1 ∧ print_chars d1 s = .ok e ∧
      e.cursor = 1920 ∧ e.video.length = 2000 ∧
      (∀ i : Nat, i < 1920 → ∃ c x, s[i + 80]? = some c ∧ e.video[i]? = some x ∧
        glyph_byte x = c ∧ x = char_cell c) ∧
      (∀ i : Nat, 1920 ≤ i → i < 2000 → e.video[i]? = some 0x0720) := by
  obtain ⟨w, hw, hl, g1, g2⟩ := fill_then_scroll s hlen hp
    (List.replicate SCREEN_SIZE 0x0720) (List.length_replicate _ _)
  refine ⟨_, _, clear_screen_ok d0 h0, hw, rfl, hl, fun i hi => ?_, g2⟩
  have hi2 : i + 80 < s.length := by omega
  refine ⟨s[i + 80], char_cell s[i + 80], List.getElem?_eq_getElem hi2, ?_, ?_, rfl⟩
  · simp only
    rw [g1 i hi, List.getElem?_eq_getElem hi2]
    rfl
  · exact glyph_char_cell _ (by have := hp s[i + 80] (List.getElem_mem _); omega)

theorem scroll_on_fill_witness :
    ∃ d1 e, clear_screen (filled 7 5) = .ok d1 ∧
      print_chars d1 (List.replicate 2000 65) = .ok e ∧
      e.cursor = 1920 ∧ e.video.length = 2000 ∧
      (∀ i : Nat, i < 1920 → ∃ c x, (List.replicate 2000 65)[i + 80]? = some c ∧
        e.video[i]? = some x ∧ glyph_byte x = c ∧ x = char_cell c) ∧
      (∀ i : Nat, 1920 ≤ i → i < 2000 → e.video[i]? = some 0x0720) :=
  scroll_on_fill (List.replicate 2000 65) (filled 7 5) (List.length_replicate _ _)
    (fun c hc => by rw [List.eq_of_mem_replicate hc]; decide)
    (List.length_replicate _ _)

/-- C4. `scroll` is a one-row shift: on a buffer `b` of 2000 cells it returns the
buffer `b'` with `b'[i] = b[i + 80]` for `i < 1920` and `b'[i] = 0x0720` for
`1920 ≤ i < 2000`, that is `b` without its first 80 cells followed by 80 blank
cells, and sets the cursor to 1920, whatever the cursor was. -/
theorem scroll_one_row_shift (b : List Nat) (k : Int) (hlen : b.length = 2000) :
    ∃ b1, scroll { video := b, cursor := k } = .ok { video := b1, cursor := 1920 } ∧
      b1.length = 2000 ∧
      (∀ i : Nat, i < 1920 → b1[i]? = b[i + 80]?) ∧
      (∀ i : Nat, 1920 ≤ i → i < 2000 → b1[i]? = some 0x0720) ∧
      b1 = b.drop 80 ++ List.replicate 80 0x0720 := by
  obtain ⟨w, hw, hl, g1, g2⟩ := scroll_ok { video := b, cursor := k } hlen
  have he := scroll_eq { video := b, cursor := k } hlen
  rw [hw] at he
  injection he with he
  injection he with he
  exact ⟨w, hw, hl, g1, g2, he⟩

theorem scroll_one_row_shift_witness :
    ∃ b1, scroll { video := List.replicate 2000 65, cursor := -3 } =
        .ok { video := b1, cursor := 1920 } ∧
      b1.length = 2000 ∧
      (∀ i : Nat, i < 1920 → b1[i]? = (List.replicate 2000 65)[i + 80]?) ∧
      (∀ i : Nat, 1920 ≤ i → i < 2000 → b1[i]? = some 0x0720) ∧
      b1 = (List.replicate 2000 65).drop 80 ++ List.replicate 80 0x0720 :=
  scroll_one_row_shift (List.replicate 2000 65) (-3) (List.length_replicate _ _)

/-- C5. Line capacity enforcement: for every capacity `cap ≥ 2`, on `n ≥ cap - 1`
printable keystrokes `k` followed by the accept key, `read_line` returns the
first `cap - 1` keystrokes as its line; exactly those characters were echoed
through `print_char`; the other keystrokes are left unread, the buffer holds
the line and its terminator and nothing else. -/
theorem line_capacity (cap : Nat) (k buf : List Nat) (d : Display) (hcap : 2 ≤ cap)
    (hk : ∀ c ∈ k, 32 ≤ c ∧ c ≤ 126) (hn : cap - 1 ≤ k.length)
    (hb : buf.length = cap) (hd : d.valid) :
    ∃ t d1, read_line (k ++ [13]) buf cap d = .ok (t, k.drop (cap - 1) ++ [13]) ∧
      cstr t.buf = k.take (cap - 1) ∧ (cstr t.buf).length = cap - 1 ∧
      t.buf = k.take (cap - 1) ++ [0] ∧
      t.echoed = k.take (cap - 1) ∧
      print_chars d (k.take (cap - 1)) = .ok d1 ∧ print_char d1 10 = .ok t.disp := by
  have hcol := collect_run (cap - 1) [13] k [] hk (Nat.zero_le _) (by simpa using hn)
  simp only [List.length_nil, Nat.sub_zero, List.nil_append] at hcol
  have hn1 : ((cap : Int) - 1).toNat = cap - 1 := by omega
  obtain ⟨t, d1, h1, h2, h3, h4, h5, h6, h7, h8, h9, h10, _⟩ :=
    (read_line_collect (k ++ [13]) buf cap d (by omega) (by omega) hd).2 _
      (by rw [hn1]; exact hcol)
  simp only at h1 h2 h3 h5 h6 h7 h8 h9
  have hlen : (k.take (cap - 1)).length = cap - 1 := by
    rw [List.length_take]; omega
  refine ⟨t, d1, h1, h7, by rw [h7, hlen], ?_, h8, h9, h10⟩
  rw [hlen] at h5
  rw [← List.take_append_drop (cap - 1) t.buf, h5]
  congr 1
  apply List.ext_getElem?
  intro j
  rw [List.getElem?_drop]
  cases j with
  | zero => rw [Nat.add_zero, ← hlen, h6]; rfl
  | succ j =>
    rw [List.getElem?_eq_none (by omega)]
    rfl

theorem line_capacity_witness :
    ∃ t d1, read_line (List.replicate 20 97 ++ [13]) (List.replicate 16 0) (16 : Nat)
        (filled 0x0720 0) = .ok (t, (List.replicate 20 97).drop (16 - 1) ++ [13]) ∧
      cstr t.buf = (List.replicate 20 97).take (16 - 1) ∧ (cstr t.buf).length = 16 - 1 ∧
      t.buf = (List.replicate 20 97).take (16 - 1) ++ [0] ∧
      t.echoed = (List.replicate 20 97).take (16 - 1) ∧
      print_chars (filled 0x0720 0) ((List.replicate 20 97).take (16 - 1)) = .ok d1 ∧
      print_char d1 10 = .ok t.disp :=
  line_capacity 16 (List.replicate 20 97) (List.replicate 16 0) (filled 0x0720 0)
    (by decide) (fun c hc => by rw [List.eq_of_mem_replicate hc]; decide) (by decide)
    (by decide) (filled_valid _ _ (by decide) (by decide))

/-- C6. Exact-match dispatch: for every input buffer, whose line `L` is the bytes
before its terminator, the dispatch step of `kernel_main` calls `cmd_restart`
and nothing else when `L` is `restart`, `cmd_shutdown` and nothing else when
`L` is `shutdown`, `cmd_clear` and nothing else when `L` is `clear`, and calls
no handler when `L` is none of the three. -/
theorem exact_match_dispatch (input : List Nat) (m : Machine) (hv : m.disp.valid) :
    ∃ m1, dispatch input m = .ok m1 ∧
      (cstr input = bytes "restart" → m1.invoked = m.invoked ++ [.cmd_restart]) ∧
      (cstr input = bytes "shutdown" → m1.invoked = m.invoked ++ [.cmd_shutdown]) ∧
      (cstr input = bytes "clear" → m1.invoked = m.invoked ++ [.cmd_clear]) ∧
      (cstr input ≠ bytes "restart" → cstr input ≠ bytes "shutdown" →
        cstr input ≠ bytes "clear" → m1.invoked = m.invoked) := by
  have e1 : bytes "restart" ≠ bytes "shutdown" := by decide
  have e2 : bytes "restart" ≠ bytes "clear" := by decide
  have e3 : bytes "shutdown" ≠ bytes "clear" := by decide
  by_cases h1 : cstr input = bytes "restart"
  · obtain ⟨m1, hc, hi, _⟩ := call_ok .cmd_restart m hv
    refine ⟨m1, ?_, fun _ => hi, fun h => ?_, fun h => ?_, fun h => absurd h1 h⟩
    · rw [dispatch_match input m ⟨_, .cmd_restart⟩ (List.mem_cons_self _ _) h1 hv]
      exact hc
    · exact absurd (h1.symm.trans h) e1
    · exact absurd (h1.symm.trans h) e2
  by_cases h2 : cstr input = bytes "shutdown"
  · obtain ⟨m1, hc, hi, _⟩ := call_ok .cmd_shutdown m hv
    refine ⟨m1, ?_, fun h => absurd h h1, fun _ => hi, fun h => ?_, fun _ h => absurd h2 h⟩
    · rw [dispatch_match input m ⟨_, .cmd_shutdown⟩
        (List.mem_cons_of_mem _ (List.mem_cons_self _ _)) h2 hv]
      exact hc
    · exact absurd (h2.symm.trans h) e3
  by_cases h3 : cstr input = bytes "clear"
  · obtain ⟨m1, hc, hi, _⟩ := call_ok .cmd_clear m hv
    refine ⟨m1, ?_, fun h => absurd h h1, fun h => absurd h h2, fun _ => hi,
      fun _ _ h => absurd h3 h⟩
    rw [dispatch_match input m ⟨_, .cmd_clear⟩
      (List.mem_cons_of_mem _ (List.mem_cons_of_mem _ (List.mem_cons_self _ _))) h3 hv]
    exact hc
  · obtain ⟨d, _, hd, _⟩ := dispatch_unknown input m (fun cmd hm => by
      simp only [commands, List.mem_cons, List.mem_singleton, List.not_mem_nil,
        or_false] at hm
      rcases hm with e | e | e <;> subst e <;> assumption) hv
    exact ⟨_, hd, fun h => absurd h h1, fun h => absurd h h2, fun h => absurd h h3,
      fun _ _ _ => rfl⟩

theorem exact_match_dispatch_witness :
    (∃ m1, dispatch (bytes "restart") ⟨filled 0x0720 0, [], []⟩ = .ok m1 ∧
      m1.invoked = [.cmd_restart]) ∧
    (∃ m1, dispatch (bytes "Restart") ⟨filled 0x0720 0, [], []⟩ = .ok m1 ∧
      m1.invoked = []) ∧
    (∃ m1, dispatch (bytes "restar") ⟨filled 0x0720 0, [], []⟩ = .ok m1 ∧
      m1.invoked = []) := by
  have hv : (filled 0x0720 0).valid := filled_valid _ _ (by decide) (by decide)
  refine ⟨?_, ?_, ?_⟩
  · obtain ⟨m1, h, a, _, _, _⟩ :=
      exact_match_dispatch (bytes "restart") ⟨filled 0x0720 0, [], []⟩ hv
    exact ⟨m1, h, a (by decide)⟩
  · obtain ⟨m1, h, _, _, _, a⟩ :=
      exact_match_dispatch (bytes "Restart") ⟨filled 0x0720 0, [], []⟩ hv
    exact ⟨m1, h, a (by decide) (by decide) (by decide)⟩
  · obtain ⟨m1, h, _, _, _, a⟩ :=
      exact_match_dispatch (bytes "restar") ⟨filled 0x0720 0, [], []⟩ hv
    exact ⟨m1, h, a (by decide) (by decide) (by decide)⟩

/-- C7. Unknown-command report: when the line `L` of the input buffer is none of
the table names, the empty line included, the dispatch step calls no handler
and leaves the display as `print` of `Unknown command: `, `L` and a newline
would; when `L` is a table name the step is the call of its handler and
nothing more, so the message is not printed. -/
theorem unknown_command_report (input : List Nat) (m : Machine) (hv : m.disp.valid) :
    ((∀ cmd ∈ commands, cstr input ≠ cmd.name) →
      ∃ d, print m.disp (bytes "Unknown command: " ++ cstr input ++ bytes "\n") = .ok d ∧
        dispatch input m = .ok { m with disp := d }) ∧
    (cstr input = [] →
      ∃ d, print m.disp (bytes "Unknown command: \n") = .ok d ∧
        dispatch input m = .ok { m with disp := d }) ∧
    (∀ cmd ∈ commands, cstr input = cmd.name → dispatch input m = call cmd.func m) := by
  refine ⟨fun h => ?_, fun h => ?_, fun cmd hm h => dispatch_match input m cmd hm h hv⟩
  · obtain ⟨d, h1, h2, _⟩ := dispatch_unknown input m h hv
    exact ⟨d, h1, h2⟩
  · obtain ⟨d, h1, h2, _⟩ := dispatch_unknown input m (fun cmd hm => by
      rw [h]
      simp only [commands, List.mem_cons, List.mem_singleton, List.not_mem_nil,
        or_false] at hm
      rcases hm with e | e | e <;> subst e <;> decide) hv
    rw [h] at h1
    exact ⟨d, h1, h2⟩

theorem unknown_command_report_witness :
    (∃ d, print (filled 0x0720 0) (bytes "Unknown command: " ++ cstr (bytes "restar") ++
        bytes "\n") = .ok d ∧
      dispatch (bytes "restar") ⟨filled 0x0720 0, [], []⟩ = .ok ⟨d, [], []⟩) ∧
    (∃ d, print (filled 0x0720 0) (bytes "Unknown command: \n") = .ok d ∧
      dispatch [0, 97] ⟨filled 0x0720 0, [], []⟩ = .ok ⟨d, [], []⟩) ∧
    dispatch (bytes "clear") ⟨filled 0x0720 0, [], []⟩ =
      call .cmd_clear ⟨filled 0x0720 0, [], []⟩ :=
  ⟨(unknown_command_report (bytes "restar") ⟨filled 0x0720 0, [], []⟩
      (filled_valid _ _ (by decide) (by decide))).1 (by decide),
    (unknown_command_report [0, 97] ⟨filled 0x0720 0, [], []⟩
      (filled_valid _ _ (by decide) (by decide))).2.1 (by decide),
    (unknown_command_report (bytes "clear") ⟨filled 0x0720 0, [], []⟩
      (filled_valid _ _ (by decide) (by decide))).2.2 ⟨bytes "clear", .cmd_clear⟩
      (by decide) (by decide)⟩

/-- C8. Line editor reference semantics: for every capacity `cap ≥ 2`, on
keystrokes `pre` without carriage return, then a carriage return, then anything,
if after each of the keystrokes of `pre` the collected length is below
`cap - 1`, `read_line` returns the left-to-right fold of the editing rule over
`pre` (printable appended, backspace removes the last byte if any, others
ignored), having read the keystrokes up to the carriage return; the carriage
return is not part of the line. -/
theorem line_editor_fold (cap : Nat) (pre post buf : List Nat) (d : Display)
    (hcap : 2 ≤ cap) (hcr : 13 ∉ pre)
    (hlen : ∀ k : Nat, k ≤ pre.length → (edit_fold (pre.take k)).length < cap - 1)
    (hb : buf.length = cap) (hd : d.valid) :
    ∃ t, read_line (pre ++ 13 :: post) buf cap d = .ok (t, post) ∧
      cstr t.buf = edit_fold pre ∧ 13 ∉ cstr t.buf := by
  have hn1 : ((cap : Int) - 1).toNat = cap - 1 := by omega
  obtain ⟨echo, he⟩ := collect_fold (cap - 1) post pre [] hcr hlen
  obtain ⟨t, _, h1, _, _, _, _, _, h7, _⟩ :=
    (read_line_collect (pre ++ 13 :: post) buf cap d (by omega) (by omega) hd).2 _
      (by rw [hn1]; exact he)
  have hpr := collect_printable _ _ [] _ (by simp) he
  refine ⟨t, h1, h7, ?_⟩
  rw [h7]
  intro hm
  have := hpr 13 hm
  omega

theorem line_editor_fold_witness :
    ∃ t, read_line ([97, 98, 8, 8, 8, 7, 99] ++ 13 :: [100]) (List.replicate 16 0)
        (16 : Nat) (filled 0x0720 0) = .ok (t, [100]) ∧
      cstr t.buf = edit_fold [97, 98, 8, 8, 8, 7, 99] ∧ 13 ∉ cstr t.buf :=
  line_editor_fold 16 [97, 98, 8, 8, 8, 7, 99] [100] (List.replicate 16 0) (filled 0x0720 0)
    (by decide) (by decide) (by decide) (by decide)
    (filled_valid _ _ (by decide) (by decide))

/-- C9. Bounded result of `read_line`: for every capacity `cap ≥ 1`, with a
buffer of `cap` bytes, `read_line` either waits for ever for a keystroke or
returns; no access to the buffer is out of range; when it returns, the
terminator is at the index `i` equal to the length of the line, that length is
at most `cap - 1`, and every byte of the line is printable. -/
theorem read_line_bounded (cap : Nat) (keys buf : List Nat) (d : Display)
    (hcap : 1 ≤ cap) (hb : buf.length = cap) (hd : d.valid) :
    read_line keys buf cap d = .error .key_wait ∨
    ∃ t rest, read_line keys buf cap d = .ok (t, rest) ∧ t.buf.length = cap ∧
      t.i = ((cstr t.buf).length : Nat) ∧ t.buf[(cstr t.buf).length]? = some 0 ∧
      (cstr t.buf).length ≤ cap - 1 ∧ ∀ c ∈ cstr t.buf, 32 ≤ c ∧ c ≤ 126 := by
  have hn1 : ((cap : Int) - 1).toNat = cap - 1 := by omega
  have hrc := read_line_collect keys buf cap d (by omega) (by omega) hd
  cases hq : collect ((cap : Int) - 1).toNat keys [] with
  | none => exact Or.inl (hrc.1 hq)
  | some r =>
    obtain ⟨t, _, h1, h2, h3, h4, _, h6, h7, _⟩ := hrc.2 r hq
    have hpr := collect_printable _ keys [] r (by simp) hq
    refine Or.inr ⟨t, r.unread, h1, by rw [h4, hb], ?_, ?_, ?_, ?_⟩
    · rw [h7]; exact h2
    · rw [h7]; exact h6
    · rw [h7, ← hn1]; exact h3
    · rw [h7]; exact hpr

theorem read_line_bounded_witness :
    ∃ t rest, read_line [97, 8, 98, 99, 13, 100] [5, 5, 5] (3 : Nat) (filled 0x0720 0) =
        .ok (t, rest) ∧ t.buf.length = 3 ∧
      t.i = ((cstr t.buf).length : Nat) ∧ t.buf[(cstr t.buf).length]? = some 0 ∧
      (cstr t.buf).length ≤ 3 - 1 ∧ ∀ c ∈ cstr t.buf, 32 ≤ c ∧ c ≤ 126 := by
  have hv : (filled 0x0720 0).valid := filled_valid _ _ (by decide) (by decide)
  rcases read_line_bounded 3 [97, 8, 98, 99, 13, 100] [5, 5, 5] (filled 0x0720 0)
    (by decide) (by decide) hv with h | h
  · obtain ⟨t, _, h1, _⟩ :=
      (read_line_collect [97, 8, 98, 99, 13, 100] [5, 5, 5] (3 : Nat) (filled 0x0720 0)
        (by decide) (by decide) hv).2 ⟨[98, 99], [13, 100], [97, 8, 98, 99]⟩ (by decide)
    rw [h] at h1
    exact absurd h1 (by simp)
  · exact h

/-- C10, counterexample. After `clear_screen`, `print_char` of the letter `A`
stores the cell `0x0F41`: its attribute byte is `0x0F`, that of the blank cell
`0x0720` is `0x07`. -/
theorem char_attribute_is_not_blank_attribute :
    ∃ d1 e, clear_screen (filled 0 0) = .ok d1 ∧ print_char d1 65 = .ok e ∧
      e.video[0]? = some 0x0F41 ∧ attr_byte 0x0F41 = 0x0F ∧ attr_byte 0x0720 = 0x07 ∧
      attr_byte 0x0F41 ≠ 0x07 := by
  have hv : (filled 0x0720 0).valid := filled_valid _ _ (by decide) (by decide)
  refine ⟨filled 0x0720 0,
    { video := (List.replicate SCREEN_SIZE 0x0720).set 0 (char_cell 65), cursor := 0 + 1 },
    clear_screen_ok _ (List.length_replicate _ _), ?_, ?_, by decide, by decide, by decide⟩
  · rw [print_char_plain _ 65 hv (by decide) (by decide) (by decide)]
    simp only [scroll_check, filled]
    rw [if_neg (by decide)]
    rfl
  · simp only
    rw [List.getElem?_set, if_pos rfl, if_pos (by rw [List.length_replicate]; decide)]
    rfl

/-- C10, amended. `print_char` stores a character `c` below 128 that is not
newline, carriage return or backspace as the cell `0x0F00 + c`, of attribute
`0x0F`, while the blank cell written by `clear_screen`, `scroll` and backspace
is `0x0720`, of attribute `0x07`; after `clear_screen` followed by `print_char`
calls on any characters below 128, every cell of the display is the blank cell
or has attribute `0x0F`. -/
theorem display_attributes (s : List Nat) (d0 : Display)
    (h0 : d0.video.length = 2000) (hs : ∀ c ∈ s, c < 128) :
    (∀ c : Nat, c < 128 → char_cell c = 0x0F00 + c ∧ attr_byte (char_cell c) = 0x0F) ∧
    attr_byte 0x0720 = 0x07 ∧
    ∃ d1 e, clear_screen d0 = .ok d1 ∧ print_chars d1 s = .ok e ∧
      e.video.length = 2000 ∧ ∀ x ∈ e.video, x = 0x0720 ∨ attr_byte x = 0x0F := by
  have hv : (filled 0x0720 0).valid := filled_valid _ _ (by decide) (by decide)
  obtain ⟨e, he, hev⟩ := print_chars_valid s (filled 0x0720 0) hv
  refine ⟨fun c hc => ⟨char_cell_ascii c hc, char_cell_attr c hc⟩, by decide,
    filled 0x0720 0, e, clear_screen_ok d0 h0, he, hev.1, ?_⟩
  refine print_chars_cells (fun x => x = 0x0720 ∨ attr_byte x = 0x0F) (Or.inl rfl) s
    (fun c hc => Or.inr (char_cell_attr c (hs c hc))) _ e hv ?_ he
  intro x hx
  exact Or.inl (List.eq_of_mem_replicate hx)

theorem display_attributes_witness :
    (∀ c : Nat, c < 128 → char_cell c = 0x0F00 + c ∧ attr_byte (char_cell c) = 0x0F) ∧
    attr_byte 0x0720 = 0x07 ∧
    ∃ d1 e, clear_screen (filled 0 7) = .ok d1 ∧ print_chars d1 [72, 105, 8, 10, 33] = .ok e ∧
      e.video.length = 2000 ∧ ∀ x ∈ e.video, x = 0x0720 ∨ attr_byte x = 0x0F :=
  display_attributes [72, 105, 8, 10, 33] (filled 0 7) (List.length_replicate _ _)
    (by decide)

/-- C11. Idempotence of clear: on every display of 2000 cells, `clear_screen`
returns the display whose 2000 cells are the blank cell `0x0720` and whose
cursor is 0, whatever the display was; applied to that display it returns it
again, so two calls in a row leave the state one call leaves. -/
theorem clear_idempotent (d : Display) (h : d.video.length = 2000) :
    clear_screen d = .ok (filled 0x0720 0) ∧
    (filled 0x0720 0).cursor = 0 ∧ (filled 0x0720 0).video.length = 2000 ∧
    (∀ i : Nat, i < 2000 → (filled 0x0720 0).video[i]? = some 0x0720) ∧
    clear_screen (filled 0x0720 0) = .ok (filled 0x0720 0) := by
  refine ⟨clear_screen_ok d h, rfl, List.length_replicate _ _, fun i hi => ?_,
    clear_screen_ok _ (List.length_replicate _ _)⟩
  simp only [filled]
  rw [List.getElem?_replicate, if_pos (by rw [size_nat]; exact hi)]

theorem clear_idempotent_witness :
    clear_screen (filled 0x0F41 1234) = .ok (filled 0x0720 0) ∧
    (filled 0x0720 0).cursor = 0 ∧ (filled 0x0720 0).video.length = 2000 ∧
    (∀ i : Nat, i < 2000 → (filled 0x0720 0).video[i]? = some 0x0720) ∧
    clear_screen (filled 0x0720 0) = .ok (filled 0x0720 0) :=
  clear_idempotent (filled 0x0F41 1234) (List.length_replicate _ _)

/-- C12. Backspace underflow safety: in the loop of `read_line`, a backspace read
while `i` is 0 leaves the whole state as it was (buffer, `i`, display, and no
`print_char` call): the loop goes on from the same state; `read_line` fed a
backspace and a carriage return returns the empty line, has echoed nothing and
leaves the display as `print` of a newline alone leaves it. -/
theorem backspace_underflow_safe :
    (∀ (max_len : Int) (rest : List Nat) (s : Editor), s.i = 0 → s.i < max_len - 1 →
      read_loop max_len (8 :: rest) s = read_loop max_len rest s) ∧
    (∀ (cap : Nat) (buf : List Nat) (d : Display), 1 ≤ cap → buf.length = cap → d.valid →
      ∃ t rest, read_line [8, 13] buf cap d = .ok (t, rest) ∧ cstr t.buf = [] ∧
        t.echoed = [] ∧ print d (bytes "\n") = .ok t.disp ∧ (2 ≤ cap → rest = [])) := by
  constructor
  · intro max_len rest s h0 hlt
    simp only [read_loop, if_pos hlt, if_neg (show (8 : Nat) ≠ 13 by decide), if_pos,
      if_neg (show ¬ s.i > 0 by omega)]
  · intro cap buf d hcap hb hd
    have hn1 : ((cap : Int) - 1).toNat = cap - 1 := by omega
    have hrc := (read_line_collect [8, 13] buf cap d (by omega) (by omega) hd).2
    rw [hn1] at hrc
    by_cases h2 : 2 ≤ cap
    · obtain ⟨t, d1, a1, _, _, _, _, _, a7, a8, a9, a10, _⟩ := hrc ⟨[], [], []⟩ (by
        have hlt : 0 < cap - 1 := by omega
        simp only [collect, List.length_nil, if_pos hlt,
          if_neg (show (8 : Nat) ≠ 13 by decide), if_pos, if_neg (Nat.lt_irrefl 0)])
      simp only [print_chars] at a9
      injection a9 with a9
      subst a9
      exact ⟨t, [], a1, a7, a8, by rw [print_newline]; exact a10, fun _ => rfl⟩
    · obtain ⟨t, d1, a1, _, _, _, _, _, a7, a8, a9, a10, _⟩ := hrc ⟨[], [8, 13], []⟩
        (collect_exit _ _ _ (by simp only [List.length_nil]; omega))
      simp only [print_chars] at a9
      injection a9 with a9
      subst a9
      exact ⟨t, [8, 13], a1, a7, a8, by rw [print_newline]; exact a10,
        fun h => absurd h h2⟩

theorem backspace_underflow_safe_witness :
    read_loop 16 (8 :: [97, 13])
        { buf := List.replicate 16 0, i := 0, disp := filled 0x0720 80, echoed := [] } =
      read_loop 16 [97, 13]
        { buf := List.replicate 16 0, i := 0, disp := filled 0x0720 80, echoed := [] } ∧
    ∃ t rest, read_line [8, 13] (List.replicate 16 0) (16 : Nat) (filled 0x0720 80) =
        .ok (t, rest) ∧ cstr t.buf = [] ∧
      t.echoed = [] ∧ print (filled 0x0720 80) (bytes "\n") = .ok t.disp ∧
      (2 ≤ 16 → rest = []) :=
  ⟨backspace_underflow_safe.1 16 [97, 13] _ rfl (by decide),
    backspace_underflow_safe.2 16 (List.replicate 16 0) (filled 0x0720 80) (by decide)
      (List.length_replicate _ _) (filled_valid _ _ (by decide) (by decide))⟩

/-- C13. Renderer backspace is a raw decrement: with `0 < cursor < 2000`,
`print_char` of backspace moves the cursor to `cursor - 1`, stores the blank
cell there and changes no other cell: there is no scroll and no special case at
the start of a row; with the cursor at 0 it returns the state unchanged. -/
theorem backspace_raw_decrement (d : Display) (h : d.valid) :
    (0 < d.cursor →
      ∃ e, print_char d 8 = .ok e ∧ e.cursor = d.cursor - 1 ∧
        e.video.length = 2000 ∧
        e.video[(d.cursor - 1).toNat]? = some 0x0720 ∧
        ∀ j : Nat, j ≠ (d.cursor - 1).toNat → e.video[j]? = d.video[j]?) ∧
    (d.cursor = 0 → print_char d 8 = .ok d) := by
  obtain ⟨hlen, h0, h1⟩ := h
  constructor
  · intro hpos
    refine ⟨_, print_char_backspace d ⟨hlen, h0, h1⟩ hpos, rfl, ?_, ?_, fun j hj => ?_⟩
    · simp only [List.length_set]; exact hlen
    · simp only
      rw [size_int] at h1
      rw [List.getElem?_set, if_pos rfl, if_pos (by rw [hlen, size_nat]; omega)]
    · simp only
      rw [List.getElem?_set, if_neg (fun e => hj e.symm)]
  · intro hz
    simp only [print_char, if_neg (show (8 : Nat) ≠ 10 by decide),
      if_neg (show (8 : Nat) ≠ 13 by decide), if_pos, hz]
    rfl

theorem backspace_raw_decrement_witness :
    (∃ e, print_char (filled 0x0F41 160) 8 = .ok e ∧ e.cursor = 160 - 1 ∧
      e.video.length = 2000 ∧
      e.video[((160 : Int) - 1).toNat]? = some 0x0720 ∧
      ∀ j : Nat, j ≠ ((160 : Int) - 1).toNat →
        e.video[j]? = (filled 0x0F41 160).video[j]?) ∧
    print_char (filled 0x0F41 0) 8 = .ok (filled 0x0F41 0) :=
  ⟨(backspace_raw_decrement (filled 0x0F41 160)
      (filled_valid _ _ (by decide) (by decide))).1 (by decide),
    (backspace_raw_decrement (filled 0x0F41 0)
      (filled_valid _ _ (by decide) (by decide))).2 rfl⟩

/-- C14. Newline rule: with `0 ≤ cursor < 2000` and the cursor in row
`r = cursor / 80`, `print_char` of newline sets the cursor to `80 * (r + 1)` and
changes no cell when `r < 24`; when `r = 24` it is one call of `scroll` (from
cursor 2000): the buffer loses its first row, the last row is blank and the
cursor is 1920. -/
theorem newline_rule (d : Display) (h : d.valid) :
    (d.cursor / 80 < 24 →
      print_char d 10 = .ok { d with cursor := 80 * (d.cursor / 80 + 1) }) ∧
    (d.cursor / 80 = 24 →
      print_char d 10 = scroll { d with cursor := 2000 } ∧
      print_char d 10 =
        .ok { video := d.video.drop 80 ++ List.replicate 80 0x0720, cursor := 1920 }) := by
  have hn := print_char_newline d h
  constructor
  · intro hr
    rw [hn]
    simp only [scroll_check]
    rw [if_neg (by simp only [size_int]; omega)]
  · intro hr
    have hs : print_char d 10 = scroll { d with cursor := 2000 } := by
      rw [hn, hr]
      simp only [scroll_check]
      rw [if_pos (by decide)]
      rfl
    exact ⟨hs, by rw [hs]; exact scroll_eq _ h.1⟩

theorem newline_rule_witness :
    print_char (filled 0x0F41 85) 10 =
      .ok { filled 0x0F41 85 with cursor := 80 * ((filled 0x0F41 85).cursor / 80 + 1) } ∧
    print_char (filled 0x0F41 1999) 10 = scroll { filled 0x0F41 1999 with cursor := 2000 } ∧
    print_char (filled 0x0F41 1999) 10 =
      .ok { video := (filled 0x0F41 1999).video.drop 80 ++ List.replicate 80 0x0720,
            cursor := 1920 } :=
  ⟨(newline_rule (filled 0x0F41 85) (filled_valid _ _ (by decide) (by decide))).1
      (by decide),
    (newline_rule (filled 0x0F41 1999) (filled_valid _ _ (by decide) (by decide))).2
      (by decide)⟩

/-- C15. Carriage-return rule: with `0 ≤ cursor < 2000`, `print_char` of carriage
return sets the cursor to `cursor - cursor mod 80` and leaves every cell as it
was, without scroll; a second carriage return changes nothing more. -/
theorem carriage_return_rule (d : Display) (h : d.valid) :
    print_char d 13 = .ok { d with cursor := d.cursor - d.cursor % 80 } ∧
    print_char { d with cursor := d.cursor - d.cursor % 80 } 13 =
      .ok { d with cursor := d.cursor - d.cursor % 80 } := by
  obtain ⟨hlen, h0, h1⟩ := h
  refine ⟨print_char_return d ⟨hlen, h0, h1⟩, ?_⟩
  rw [print_char_return { d with cursor := d.cursor - d.cursor % 80 }
    ⟨hlen, by simp only; omega, by simp only [size_int] at h1 ⊢; omega⟩]
  congr 2
  simp only
  omega

theorem carriage_return_rule_witness :
    print_char (filled 0x0F41 1999) 13 =
      .ok { filled 0x0F41 1999 with
            cursor := (filled 0x0F41 1999).cursor - (filled 0x0F41 1999).cursor % 80 } ∧
    print_char { filled 0x0F41 1999 with
                 cursor := (filled 0x0F41 1999).cursor - (filled 0x0F41 1999).cursor % 80 } 13 =
      .ok { filled 0x0F41 1999 with
            cursor := (filled 0x0F41 1999).cursor - (filled 0x0F41 1999).cursor % 80 } :=
  carriage_return_rule (filled 0x0F41 1999) (filled_valid _ _ (by decide) (by decide))

/-- C16. No out-of-range display access: on a buffer of 2000 cells a read or a
write of `video[i]` goes through exactly when `0 ≤ i < 2000` and stops the run
otherwise; with `0 ≤ cursor < 2000`, `print_char` runs to its end for every
character, the scroll it may trigger included, and so do `scroll` and
`clear_screen` from any cursor value: none of their accesses is out of range. -/
theorem no_out_of_range_access :
    (∀ (v : List Nat) (i : Int) (x : Nat), v.length = 2000 →
      ((∃ w, video_store v i x = .ok w) ↔ (0 ≤ i ∧ i < 2000)) ∧
      ((∃ y, video_load v i = .ok y) ↔ (0 ≤ i ∧ i < 2000))) ∧
    (∀ (d : Display) (c : Nat), d.valid → ∃ e, print_char d c = .ok e) ∧
    (∀ d : Display, d.video.length = 2000 → ∃ e, scroll d = .ok e) ∧
    (∀ d : Display, d.video.length = 2000 → ∃ e, clear_screen d = .ok e) := by
  refine ⟨fun v i x hv => ⟨?_, ?_⟩, fun d c h => ?_, fun d h => ?_, fun d h => ?_⟩
  · constructor
    · rintro ⟨w, hw⟩
      by_cases hc : 0 ≤ i ∧ i.toNat < v.length
      · exact ⟨hc.1, by omega⟩
      · simp [video_store, hc] at hw
    · rintro ⟨h0, h1⟩
      exact ⟨_, video_store_ok v i x h0 (by omega)⟩
  · constructor
    · rintro ⟨y, hy⟩
      by_cases h0 : 0 ≤ i
      · refine ⟨h0, ?_⟩
        by_contra hge
        have hnone : v[i.toNat]? = none := List.getElem?_eq_none (by omega)
        simp [video_load, h0, hnone] at hy
      · simp [video_load, h0] at hy
    · rintro ⟨h0, h1⟩
      have hlt : i.toNat < v.length := by omega
      exact ⟨_, video_load_ok v i _ h0 (List.getElem?_eq_getElem hlt)⟩
  · obtain ⟨e, he, _⟩ := print_char_valid d c h
    exact ⟨e, he⟩
  · exact ⟨_, scroll_eq d h⟩
  · exact ⟨_, clear_screen_ok d h⟩

theorem no_out_of_range_access_witness :
    (∃ e, print_char (filled 0x0720 1999) 65 = .ok e) ∧
    (∃ e, print_char (filled 0x0720 1999) 10 = .ok e) ∧
    (∃ e, scroll (filled 0x0720 (-7)) = .ok e) ∧
    (∃ e, clear_screen (filled 0x0720 5000) = .ok e) ∧
    ((∃ w, video_store (List.replicate 2000 0) 2000 7 = .ok w) ↔
      ((0 : Int) ≤ 2000 ∧ (2000 : Int) < 2000)) :=
  ⟨no_out_of_range_access.2.1 _ 65 (filled_valid _ _ (by decide) (by decide)),
    no_out_of_range_access.2.1 _ 10 (filled_valid _ _ (by decide) (by decide)),
    no_out_of_range_access.2.2.1 _ (List.length_replicate _ _),
    no_out_of_range_access.2.2.2 _ (List.length_replicate _ _),
    (no_out_of_range_access.1 (List.replicate 2000 0) 2000 7
      (List.length_replicate _ _)).1⟩

/-- C17. `print` is the left-to-right fold of `print_char`: on a string without
the byte 0, `print` returns what the successive `print_char` calls on its bytes
return; for two such strings, `print` of their concatenation is `print` of the
first followed by `print` of the second; `print` of the empty string returns the
state unchanged. -/
theorem print_is_fold (d : Display) (a b : List Nat) (ha : ∀ c ∈ a, c ≠ 0)
    (hb : ∀ c ∈ b, c ≠ 0) :
    print d a = print_chars d a ∧
    print d (a ++ b) =
      (match print d a with
       | .error e => .error e
       | .ok d1 => print d1 b) ∧
    print d [] = .ok d := by
  have hab : ∀ c ∈ a ++ b, c ≠ 0 := by
    intro c hc
    rcases List.mem_append.1 hc with hc | hc
    · exact ha c hc
    · exact hb c hc
  refine ⟨?_, ?_, rfl⟩
  · rw [print_eq_chars, cstr_of_nonzero a ha]
  · rw [print_eq_chars, cstr_of_nonzero _ hab, print_chars_append, print_eq_chars a d,
      cstr_of_nonzero a ha]
    cases print_chars d a with
    | error e => rfl
    | ok d1 => simp only; rw [print_eq_chars, cstr_of_nonzero b hb]

theorem print_is_fold_witness :
    print (filled 0x0720 1990) (bytes "> ") = print_chars (filled 0x0720 1990) (bytes "> ") ∧
    print (filled 0x0720 1990) (bytes "> " ++ bytes "clear\n") =
      (match print (filled 0x0720 1990) (bytes "> ") with
       | .error e => .error e
       | .ok d1 => print d1 (bytes "clear\n")) ∧
    print (filled 0x0720 1990) [] = .ok (filled 0x0720 1990) :=
  print_is_fold (filled 0x0720 1990) (bytes "> ") (bytes "clear\n") (by decide) (by decide)

/-- C18. Prompt always starts a row, the interrupts of `cmd_restart` and
`cmd_shutdown` being taken to return.  After the start of `kernel_main`, and
after every pass through its loop whatever the keystrokes, the display has its
cursor at column 0 of a row, `0 ≤ cursor ≤ 1920`; a pass ends whenever a
carriage return is among the keystrokes left, and otherwise only waits for a
key.  From such a display the prompt takes the cells `p` and `p + 1`, and every
state `s` of the loop of `read_line(input, 16)` that follows has its cursor at
`p + 2 + i` with `0 ≤ i ≤ 15`, in the row of `p`, with the two prompt cells
intact; each keystroke other than the carriage return leads to such a state. -/
theorem prompt_starts_a_row :
    (∀ d0 : Display, d0.video.length = 2000 →
      ∃ m0, kernel_start d0 = .ok m0 ∧ m0.disp.at_row_start) ∧
    (∀ s s1 : Shell, s.m.disp.at_row_start → s.input.length = 16 →
      loop_body s = .ok s1 → s1.m.disp.at_row_start ∧ s1.input.length = 16) ∧
    (∀ s : Shell, s.m.disp.at_row_start → s.input.length = 16 → 13 ∈ s.keys →
      ∃ s1, loop_body s = .ok s1) ∧
    (∀ (s : Shell) (e : Abort), s.m.disp.at_row_start → s.input.length = 16 →
      loop_body s = .error e → e = .key_wait) ∧
    (∀ (n : Nat) (s s1 : Shell), s.m.disp.at_row_start → s.input.length = 16 →
      main_loop n s = .ok s1 → s1.m.disp.at_row_start ∧ s1.input.length = 16) ∧
    (∀ (d : Display) (p : Nat) (buf : List Nat), d.at_row_start → d.cursor = p →
      buf.length = 16 →
      ∃ d1, print d (bytes "> ") = .ok d1 ∧
        Editor.tracks 16 (p + 2) d1.video { buf := buf, i := 0, disp := d1, echoed := [] } ∧
        ∀ s : Editor, s.tracks 16 (p + 2) d1.video →
          (s.disp.cursor = (p : Int) + 2 + s.i ∧ 0 ≤ s.i ∧ s.i ≤ 15 ∧
            s.disp.cursor / 80 = (p : Int) / 80 ∧
            s.disp.video[p]? = some (char_cell 62) ∧
            s.disp.video[p + 1]? = some (char_cell 32)) ∧
          (s.i < 15 → ∀ c : Nat, c ≠ 13 →
            ∃ s1 : Editor, s1.tracks 16 (p + 2) d1.video ∧
              ∀ rest, read_loop 16 (c :: rest) s = read_loop 16 rest s1)) := by
  refine ⟨kernel_start_row_start, ?_, ?_, ?_, main_loop_row_start, ?_⟩
  · intro s s1 hr hin h
    have hc := loop_body_cases s hr hin
    cases hq : collect 15 s.keys [] with
    | none => rw [hc.1 hq] at h; exact absurd h (by simp)
    | some r =>
      obtain ⟨s2, h2, hr2, hin2, _⟩ := hc.2 r hq
      rw [h2] at h
      injection h with h
      subst h
      exact ⟨hr2, hin2⟩
  · intro s hr hin hcr
    obtain ⟨r, hq, _⟩ := collect_stop 15 s.keys [] (by decide) hcr
    obtain ⟨s1, h1, _⟩ := (loop_body_cases s hr hin).2 r hq
    exact ⟨s1, h1⟩
  · intro s e hr hin h
    have hc := loop_body_cases s hr hin
    cases hq : collect 15 s.keys [] with
    | none =>
      rw [hc.1 hq] at h
      injection h with h
      exact h.symm
    | some r =>
      obtain ⟨s2, h2, _⟩ := hc.2 r hq
      rw [h2] at h
      exact absurd h (by simp)
  · intro d p buf hr hcur hbuf
    obtain ⟨w, hw, hl, hp0, hp1⟩ := prompt_shown d p hr hcur
    have hple : (p : Int) ≤ 1920 := by rw [← hcur]; exact hr.2.2.1
    have hmod : (p : Int) % 80 = 0 := by rw [← hcur]; exact hr.2.2.2
    refine ⟨_, hw, tracks_start 16 (p + 2) buf _ (by decide) (by rw [hbuf]; decide) hl rfl,
      fun s ht => ⟨?_, fun hlt c h13 => ?_⟩⟩
    · obtain ⟨h0, h1, _, _, hcur2, _, hbefore, _⟩ := ht
      simp only at hbefore
      refine ⟨by rw [hcur2]; push_cast; ring, h0, by omega, ?_, ?_, ?_⟩
      · rw [hcur2]; push_cast; omega
      · rw [hbefore p (by omega)]; exact hp0
      · rw [hbefore (p + 1) (by omega)]; exact hp1
    · exact read_step 16 (p + 2) _ s c (by push_cast; omega) ht (by omega) h13

theorem prompt_starts_a_row_witness :
    (∃ m0, kernel_start (filled 7 5) = .ok m0 ∧ m0.disp.at_row_start) ∧
    (∃ s1, loop_body { m := ⟨filled 0x0720 1920, [], []⟩, input := List.replicate 16 0,
                       keys := [99, 108, 8, 13, 97] } = .ok s1 ∧
      s1.m.disp.at_row_start ∧ s1.input.length = 16) ∧
    (∃ d1, print (filled 0x0720 1920) (bytes "> ") = .ok d1 ∧
      Editor.tracks 16 (1920 + 2) d1.video
        { buf := List.replicate 16 0, i := 0, disp := d1, echoed := [] }) := by
  have hr : (filled 0x0720 1920).at_row_start :=
    ⟨List.length_replicate _ _, by decide, by decide, by decide⟩
  refine ⟨prompt_starts_a_row.1 (filled 7 5) (List.length_replicate _ _), ?_, ?_⟩
  · obtain ⟨s1, h1⟩ := prompt_starts_a_row.2.2.1
      { m := ⟨filled 0x0720 1920, [], []⟩, input := List.replicate 16 0,
        keys := [99, 108, 8, 13, 97] } hr (List.length_replicate _ _) (by decide)
    exact ⟨s1, h1, prompt_starts_a_row.2.1 _ s1 hr (List.length_replicate _ _) h1⟩
  · obtain ⟨d1, h1, h2, _⟩ := prompt_starts_a_row.2.2.2.2.2 (filled 0x0720 1920) 1920
      (List.replicate 16 0) hr rfl (List.length_replicate _ _)
    exact ⟨d1, h1, h2⟩

/-- C19. The screen shows what `read_line` returns: for every capacity
`cap ≥ 1`, from a display of 2000 cells whose cursor `p` is below 1920 with
`p mod 80 + cap ≤ 80`, when `read_line` returns the line `L`, cell `p + i` holds
the glyph `L[i]` for every `i < |L|`, the cells before `p` are unchanged, every
cell from `p + |L|` on is unchanged or blank, and the cursor is at column 0 of
the row after the row of `p`. -/
theorem screen_shows_line (cap p : Nat) (keys buf : List Nat) (d : Display) (t : Editor)
    (rest : List Nat) (hcap : 1 ≤ cap) (hb : buf.length = cap)
    (hlen : d.video.length = 2000) (hcur : d.cursor = p) (hp : p < 1920)
    (hcol : p % 80 + cap ≤ 80) (hret : read_line keys buf cap d = .ok (t, rest)) :
    (∀ i : Nat, i < (cstr t.buf).length →
      ∃ c x, (cstr t.buf)[i]? = some c ∧ t.disp.video[p + i]? = some x ∧
        x = char_cell c ∧ glyph_byte x = c) ∧
    (∀ j : Nat, j < p → t.disp.video[j]? = d.video[j]?) ∧
    (∀ j : Nat, p + (cstr t.buf).length ≤ j →
      t.disp.video[j]? = d.video[j]? ∨ t.disp.video[j]? = some 0x0720) ∧
    t.disp.cursor = 80 * ((p : Int) / 80 + 1) ∧ t.disp.video.length = 2000 := by
  have hv : d.valid := ⟨hlen, by omega, by rw [size_int]; omega⟩
  obtain ⟨s, ht, e1, e2, e3, e4⟩ := read_line_tracks keys buf cap p d t rest (by omega)
    (by omega) hlen hcur (by omega) (by omega) hret
  obtain ⟨h0, hi1, hb2, hlen2, hcur2, hshow, hbefore, hafter⟩ := ht
  have hrc := read_line_collect keys buf cap d (by omega) (by omega) hv
  cases hq : collect ((cap : Int) - 1).toNat keys [] with
  | none => rw [hrc.1 hq] at hret; exact absurd hret (by simp)
  | some r =>
    obtain ⟨t1, _, a1, a2, _, _, a5, _, a7, _⟩ := hrc.2 r hq
    rw [hret] at a1
    injection a1 with a1
    injection a1 with a1 _
    subst a1
    have hpr := collect_printable _ keys [] r (by simp) hq
    have hn : r.line.length = s.i.toNat := by omega
    rw [a7]
    refine ⟨fun i hi => ?_, fun j hj => by rw [e3]; exact hbefore j hj,
      fun j hj => by rw [e3]; exact hafter j (by omega), ?_, by rw [e3]; exact hlen2⟩
    · have hc := hpr r.line[i] (List.getElem_mem _)
      have hbi : s.buf[i]? = some r.line[i] := by
        have h1 : (t.buf.take r.line.length)[i]? = some r.line[i] := by
          rw [a5]; exact List.getElem?_eq_getElem hi
        rw [List.getElem?_take, if_pos hi, e2, List.getElem?_set,
          if_neg (by omega)] at h1
        exact h1
      refine ⟨r.line[i], char_cell r.line[i], List.getElem?_eq_getElem hi, ?_, rfl,
        glyph_char_cell _ (by omega)⟩
      rw [e3, hshow i (by omega), hbi]
      rfl
    · rw [e4]
      have : ((p : Int) + s.i) / 80 = (p : Int) / 80 := by omega
      rw [this]

theorem screen_shows_line_witness :
    ∃ t rest, read_line [97, 98, 8, 99, 13] (List.replicate 16 0) (16 : Nat)
        (filled 0x0720 82) = .ok (t, rest) ∧
      (∀ i : Nat, i < (cstr t.buf).length →
        ∃ c x, (cstr t.buf)[i]? = some c ∧ t.disp.video[82 + i]? = some x ∧
          x = char_cell c ∧ glyph_byte x = c) ∧
      (∀ j : Nat, j < 82 → t.disp.video[j]? = (filled 0x0720 82).video[j]?) ∧
      (∀ j : Nat, 82 + (cstr t.buf).length ≤ j →
        t.disp.video[j]? = (filled 0x0720 82).video[j]? ∨
          t.disp.video[j]? = some 0x0720) ∧
      t.disp.cursor = 80 * (((82 : Nat) : Int) / 80 + 1) ∧ t.disp.video.length = 2000 := by
  obtain ⟨t, _, h1, _⟩ :=
    (read_line_collect [97, 98, 8, 99, 13] (List.replicate 16 0) (16 : Nat)
      (filled 0x0720 82) (by decide) (by decide)
      (filled_valid _ _ (by decide) (by decide))).2 ⟨[97, 99], [], [97, 98, 8, 99]⟩
      (by decide)
  exact ⟨t, [], h1, screen_shows_line 16 82 [97, 98, 8, 99, 13] (List.replicate 16 0)
    (filled 0x0720 82) t [] (by decide) (List.length_replicate _ _)
    (List.length_replicate _ _) rfl (by decide) (by decide) h1⟩

/-- C20. `strcmp` decides string equality: for strings `a` and `b` without the
byte 0 (each followed by its terminator), the result is 0 exactly when `a = b`;
otherwise it is the difference of the bytes, as unsigned values, at the first
position where the terminated strings differ, and it is negative when `a` is a
proper prefix of `b`; the loop condition is evaluated at most
`min |a| |b| + 1` times. -/
theorem strcmp_decides_equality (a b : List Nat) (ha : ∀ c ∈ a, c ≠ 0)
    (hb : ∀ c ∈ b, c ≠ 0) :
    (strcmp a b = 0 ↔ a = b) ∧
    (a ≠ b → ∃ k : Nat, k ≤ a.length ∧ k ≤ b.length ∧ a.take k = b.take k ∧
      a.getD k 0 ≠ b.getD k 0 ∧ strcmp a b = (a.getD k 0 : Int) - (b.getD k 0 : Nat)) ∧
    (a <+: b → a ≠ b → strcmp a b < 0) ∧
    (strcmp_counted a b).1 = strcmp a b ∧
    (strcmp_counted a b).2 ≤ min a.length b.length + 1 := by
  refine ⟨?_, strcmp_first_diff a b ha hb, strcmp_prefix_neg a b ha hb,
    strcmp_counted_fst a b, strcmp_counted_snd a b ha⟩
  rw [strcmp_zero_iff, cstr_of_nonzero a ha, cstr_of_nonzero b hb]

theorem strcmp_decides_equality_witness :
    (strcmp (bytes "clear") (bytes "clearly") = 0 ↔ bytes "clear" = bytes "clearly") ∧
    (bytes "clear" ≠ bytes "clearly" →
      ∃ k : Nat, k ≤ (bytes "clear").length ∧ k ≤ (bytes "clearly").length ∧
        (bytes "clear").take k = (bytes "clearly").take k ∧
        (bytes "clear").getD k 0 ≠ (bytes "clearly").getD k 0 ∧
        strcmp (bytes "clear") (bytes "clearly") =
          ((bytes "clear").getD k 0 : Int) - ((bytes "clearly").getD k 0 : Nat)) ∧
    (bytes "clear" <+: bytes "clearly" → bytes "clear" ≠ bytes "clearly" →
      strcmp (bytes "clear") (bytes "clearly") < 0) ∧
    (strcmp_counted (bytes "clear") (bytes "clearly")).1 =
      strcmp (bytes "clear") (bytes "clearly") ∧
    (strcmp_counted (bytes "clear") (bytes "clearly")).2 ≤
      min (bytes "clear").length (bytes "clearly").length + 1 :=
  strcmp_decides_equality (bytes "clear") (bytes "clearly") (by decide) (by decide)

end Kernel
